import Mathlib

/-
Verification of the diff-rendering core of rust-pretty-assertions
(src/pretty_assertions/src/printer.rs, legacy variant src/src/printer.rs).

The line-level and character-level edit-script primitives live in the external
diff crate and are modelled from the spec (an LCS-style tagged edit script);
the model is pinned by the expected outputs of the repository's own tests.
Carriage-return handling of Rust str::lines is out of scope: the spec treats
the newline character as the only separator.
-/

namespace PrettyAssertions

/-- Tagged entry of a line- or character-level edit script, mirroring the
diff crate's Result type: left = removed, right = inserted, both = equal. -/
inductive DiffResult (α : Type) where
  | both (l r : α)
  | left (l : α)
  | right (r : α)
deriving DecidableEq, Repr

/-- Modelled from the spec: length of a longest common subsequence, the
quantity an LCS-style diff primitive optimises. Fuel-based so that it is
structurally recursive; fuel at least the sum of the lengths suffices. -/
def lcsLen {α : Type} [DecidableEq α] : Nat → List α → List α → Nat
  | 0, _, _ => 0
  | _ + 1, [], _ => 0
  | _ + 1, _ :: _, [] => 0
  | f + 1, x :: xs, y :: ys =>
    if x = y then lcsLen f xs ys + 1
    else max (lcsLen f xs (y :: ys)) (lcsLen f (x :: xs) ys)

/-- Modelled from the spec: the external sequence-diff primitive (the diff
crate's slice function is not part of this repository). It produces a tagged
edit script of equal/removed/inserted entries following a longest common
subsequence, emitting removals before insertions inside a replaced hunk,
as pinned by the expected outputs of the repository's printer tests. -/
def diffAux {α : Type} [DecidableEq α] : Nat → List α → List α → List (DiffResult α)
  | 0, _, _ => []
  | _ + 1, [], ys => ys.map DiffResult.right
  | f + 1, x :: xs, [] => DiffResult.left x :: diffAux f xs []
  | f + 1, x :: xs, y :: ys =>
    if x = y then DiffResult.both x y :: diffAux f xs ys
    else if lcsLen f (x :: xs) ys ≤ lcsLen f xs (y :: ys) then
      DiffResult.left x :: diffAux f xs (y :: ys)
    else
      DiffResult.right y :: diffAux f (x :: xs) ys

/-- Modelled from the spec: the diff primitive at its natural fuel. -/
def diffSlice {α : Type} [DecidableEq α] (xs ys : List α) : List (DiffResult α) :=
  diffAux (xs.length + ys.length) xs ys

/-- Split a character list at newline characters; the separator is dropped.
A list with n newline characters yields n+1 parts. -/
def splitNl : List Char → List (List Char)
  | [] => [[]]
  | c :: rest =>
    if c = '\n' then [] :: splitNl rest
    else
      match splitNl rest with
      | [] => [[c]]
      | l :: ls => (c :: l) :: ls

/-- Whether a string ends with a newline character. -/
def endsNl (s : String) : Bool := s.data.getLast? = some '\n'

/-- Modelled from the spec: the physical lines of a text. Newline is the
separator, not included in either line; a trailing separator yields a
trailing empty line; the empty string yields no lines. -/
def splitLines (s : String) : List String :=
  match s.data with
  | [] => []
  | cs => (splitNl cs).map String.mk

/-- Modelled from the spec: Rust str::lines as consumed by the external
diff::lines. Like splitLines except that a trailing separator does not
produce a final empty line. -/
def strLines (s : String) : List String :=
  if endsNl s then (splitLines s).dropLast else splitLines s

/-- Modelled from the spec: the external diff::lines. It diffs the
str::lines sequences and then appends one extra script entry accounting for
trailing newlines, so that a trailing blank-line difference is visible. -/
def diffLines (left right : String) : List (DiffResult String) :=
  let d := diffSlice (strLines left) (strLines right)
  match endsNl left, endsNl right with
  | true, true => d ++ [DiffResult.both "" ""]
  | true, false => d ++ [DiffResult.left ""]
  | false, true => d ++ [DiffResult.right ""]
  | false, false => d

/-- Modelled from the spec: the external diff::chars, a character-level
edit script between two strings. -/
def diffChars (left right : String) : List (DiffResult Char) :=
  diffSlice left.data right.data

/-- The removed-side elements of an edit script, in order (both counts). -/
def scriptLefts {α : Type} : List (DiffResult α) → List α
  | [] => []
  | DiffResult.both v _ :: rest => v :: scriptLefts rest
  | DiffResult.left v :: rest => v :: scriptLefts rest
  | DiffResult.right _ :: rest => scriptLefts rest

/-- The inserted-side elements of an edit script, in order (both counts). -/
def scriptRights {α : Type} : List (DiffResult α) → List α
  | [] => []
  | DiffResult.both _ v :: rest => v :: scriptRights rest
  | DiffResult.left _ :: rest => scriptRights rest
  | DiffResult.right v :: rest => v :: scriptRights rest

/-- The marker character for the right (inserted) side. -/
def SIGN_RIGHT : Char := '>'

/-- The marker character for the left (removed) side. -/
def SIGN_LEFT : Char := '<'

/-- The text styles the printer uses, mirroring the yansi styles built in
printer.rs. neutral is Style::new(), the styleless default. -/
inductive Style where
  | neutral
  | redLight
  | redHeavy
  | greenLight
  | greenHeavy
deriving DecidableEq, Repr

/-- The ANSI escape a style emits when opened (yansi fmt_prefix), as pinned
by the escape constants in the printer test module. -/
def Style.prefixStr : Style → String
  | Style.neutral => ""
  | Style.redLight => "\x1b[31m"
  | Style.redHeavy => "\x1b[1;48;5;52;31m"
  | Style.greenLight => "\x1b[32m"
  | Style.greenHeavy => "\x1b[1;48;5;22;32m"

/-- The ANSI escape a style emits when closed (yansi fmt_suffix): the reset
sequence, or nothing for the styleless default. -/
def Style.suffixStr : Style → String
  | Style.neutral => ""
  | _ => "\x1b[0m"

/-- One write performed by the inline writer: opening a style, closing the
current style, a plain character, or the line terminator. -/
inductive Token where
  | openStyle (s : Style)
  | closeStyle
  | chr (c : Char)
  | newline
deriving DecidableEq, Repr

/-- The bytes a single token writes. -/
def renderToken : Token → String
  | Token.openStyle s => s.prefixStr
  | Token.closeStyle => "\x1b[0m"
  | Token.chr c => String.singleton c
  | Token.newline => "\n"

/-- InlineWriter::write_with_style: if the requested style equals the current
one, write the character verbatim; otherwise close the current style (no
write for the styleless default), open the new one and write the character.
Returns the tokens written and the new current style. -/
def writeWithStyle (st : Style) (c : Char) (new : Style) : List Token × Style :=
  if new = st then ([Token.chr c], st)
  else
    ((if st = Style.neutral then [] else [Token.closeStyle]) ++
      (if new = Style.neutral then [] else [Token.openStyle new]) ++
      [Token.chr c], new)

/-- InlineWriter::finish: close any open style, write the line terminator and
reset the current style to the default. -/
def finishLine (st : Style) : List Token × Style :=
  ((if st = Style.neutral then [] else [Token.closeStyle]) ++ [Token.newline],
    Style.neutral)

/-- The left-line loop of write_inline_diff: equal characters in the light
style, removed characters in the heavy style, inserted characters skipped. -/
def inlineLeftGo (light heavy : Style) : Style → List (DiffResult Char) → List Token × Style
  | st, [] => ([], st)
  | st, DiffResult.both v _ :: rest =>
    let p := writeWithStyle st v light
    let q := inlineLeftGo light heavy p.2 rest
    (p.1 ++ q.1, q.2)
  | st, DiffResult.left v :: rest =>
    let p := writeWithStyle st v heavy
    let q := inlineLeftGo light heavy p.2 rest
    (p.1 ++ q.1, q.2)
  | st, DiffResult.right _ :: rest => inlineLeftGo light heavy st rest

/-- The right-line loop of write_inline_diff: equal characters in the light
style, inserted characters in the heavy style, removed characters skipped. -/
def inlineRightGo (light heavy : Style) : Style → List (DiffResult Char) → List Token × Style
  | st, [] => ([], st)
  | st, DiffResult.both _ v :: rest =>
    let p := writeWithStyle st v light
    let q := inlineRightGo light heavy p.2 rest
    (p.1 ++ q.1, q.2)
  | st, DiffResult.right v :: rest =>
    let p := writeWithStyle st v heavy
    let q := inlineRightGo light heavy p.2 rest
    (p.1 ++ q.1, q.2)
  | st, DiffResult.left _ :: rest => inlineRightGo light heavy st rest

/-- The tokens of the first (removed-side) line of write_inline_diff. The
writer starts in the default style. -/
def inlineLineTokens1 (left right : String) : List Token :=
  let d := diffChars left right
  let p0 := writeWithStyle Style.neutral SIGN_LEFT Style.redLight
  let p1 := inlineLeftGo Style.redLight Style.redHeavy p0.2 d
  let p2 := finishLine p1.2
  p0.1 ++ p1.1 ++ p2.1

/-- The tokens of the second (inserted-side) line of write_inline_diff.
finishLine reset the writer to the default style, so this line again starts
from the default style. -/
def inlineLineTokens2 (left right : String) : List Token :=
  let d := diffChars left right
  let q0 := writeWithStyle Style.neutral SIGN_RIGHT Style.greenLight
  let q1 := inlineRightGo Style.greenLight Style.greenHeavy q0.2 d
  let q2 := finishLine q1.2
  q0.1 ++ q1.1 ++ q2.1

/-- All tokens written by write_inline_diff, in order. -/
def inlineDiffTokens (left right : String) : List Token :=
  inlineLineTokens1 left right ++ inlineLineTokens2 left right

/-- Render a token list to the bytes it writes. -/
def renderTokens (ts : List Token) : String :=
  String.join (ts.map renderToken)

/-- write_inline_diff: two output lines showing a character-level diff of a
removed/inserted line pair, with grouped styling. -/
def write_inline_diff (left right : String) : String :=
  renderTokens (inlineDiffTokens left right)

/-- The deferred-deletion buffer of write_lines: the most recent deleted line
seen, plus the number of deleted lines seen including the current value. -/
structure LatentDeletion where
  value : Option String
  count : Nat
deriving DecidableEq, Repr

/-- LatentDeletion::default. -/
def LatentDeletion.start : LatentDeletion := ⟨none, 0⟩

/-- LatentDeletion::set. -/
def LatentDeletion.set (d : LatentDeletion) (v : String) : LatentDeletion :=
  ⟨some v, d.count + 1⟩

/-- LatentDeletion::take: the value is surrendered for inline diffing only
when exactly one deleted line has been seen; otherwise nothing is taken and
the buffer is left unchanged. Returns the taken value and the new buffer. -/
def LatentDeletion.take (d : LatentDeletion) : Option String × LatentDeletion :=
  if d.count = 1 then (d.value, ⟨none, d.count⟩) else (none, d)

/-- The buffer after LatentDeletion::flush: the value is cleared; if there
was no value the count is reset to zero (flush ran twice with no deletion in
between, so the line in the middle was something else). -/
def LatentDeletion.flushState (d : LatentDeletion) : LatentDeletion :=
  match d.value with
  | some _ => ⟨none, d.count⟩
  | none => ⟨none, 0⟩

/-- One output unit of the write_lines walk: an unchanged context line, a
plain removed line, a plain added line, or an inline-diffed line pair. -/
inductive OutLine where
  | ctx (v : String)
  | removed (v : String)
  | added (v : String)
  | inlineDiff (del ins : String)
deriving DecidableEq, Repr

/-- The output LatentDeletion::flush produces: the pending removed line as a
plain whole-line removal, or nothing. -/
def LatentDeletion.flushOut (d : LatentDeletion) : List OutLine :=
  match d.value with
  | some v => [OutLine.removed v]
  | none => []

/-- The write_lines walk over the edit script, producing its output units in
order. Mirrors the peekable loop of write_lines: context lines flush the
pending deletion first; deletions are deferred; an insertion followed by more
insertions is printed plainly after a flush; otherwise an insertion takes a
single pending deletion for an inline diff, or is printed plainly after a
flush. The pending deletion is flushed once more after the loop. -/
def writeLinesEvents : List (DiffResult String) → LatentDeletion → List OutLine
  | [], d => d.flushOut
  | c :: rest, d =>
    match c, rest with
    | DiffResult.both v _, _ =>
      d.flushOut ++ OutLine.ctx v :: writeLinesEvents rest d.flushState
    | DiffResult.left del, _ =>
      d.flushOut ++ writeLinesEvents rest (d.flushState.set del)
    | DiffResult.right ins, DiffResult.right _ :: _ =>
      d.flushOut ++ OutLine.added ins :: writeLinesEvents rest d.flushState
    | DiffResult.right ins, _ =>
      match d.take with
      | (some del, d1) => OutLine.inlineDiff del ins :: writeLinesEvents rest d1
      | (none, d1) =>
        d1.flushOut ++ OutLine.added ins :: writeLinesEvents rest d1.flushState

/-- The individual sink writes an output unit performs, in order: a context
line is one writeln; a plain removed or added line is one painted write plus
one writeln; an inline diff performs the inline writer's token writes. -/
def outLineWrites : OutLine → List String
  | OutLine.ctx v => [" " ++ v ++ "\n"]
  | OutLine.removed v => ["\x1b[31m" ++ String.singleton SIGN_LEFT ++ v ++ "\x1b[0m", "\n"]
  | OutLine.added v => ["\x1b[32m" ++ String.singleton SIGN_RIGHT ++ v ++ "\x1b[0m", "\n"]
  | OutLine.inlineDiff del ins => (inlineDiffTokens del ins).map renderToken

/-- The bytes an output unit writes. -/
def renderOutLine (e : OutLine) : String :=
  String.join (outLineWrites e)

/-- write_lines: compute the line-level edit script of the two texts and
render the walk's output units in order. -/
def write_lines (left right : String) : String :=
  String.join ((writeLinesEvents (diffLines left right) LatentDeletion.start).map renderOutLine)

/-- The buffer states the write_lines walk passes through: the state at the
head of every loop iteration, the state after the loop, and the state after
the final flush. -/
def writeLinesStates : List (DiffResult String) → LatentDeletion → List LatentDeletion
  | [], d => [d, d.flushState]
  | c :: rest, d =>
    d ::
      (match c, rest with
      | DiffResult.both _ _, _ => writeLinesStates rest d.flushState
      | DiffResult.left del, _ => writeLinesStates rest (d.flushState.set del)
      | DiffResult.right _, DiffResult.right _ :: _ => writeLinesStates rest d.flushState
      | DiffResult.right _, _ =>
        match d.take with
        | (some _, d1) => writeLinesStates rest d1
        | (none, d1) => writeLinesStates rest d1.flushState)

/-- The number of removed lines a buffer state holds pending. -/
def pendingCount (d : LatentDeletion) : Nat :=
  match d.value with
  | some _ => 1
  | none => 0

/-- The buffer state write_lines ends in, after the final flush. -/
def writeLinesFinal : List (DiffResult String) → LatentDeletion → LatentDeletion
  | [], d => d.flushState
  | c :: rest, d =>
    match c, rest with
    | DiffResult.both _ _, _ => writeLinesFinal rest d.flushState
    | DiffResult.left del, _ => writeLinesFinal rest (d.flushState.set del)
    | DiffResult.right _, DiffResult.right _ :: _ => writeLinesFinal rest d.flushState
    | DiffResult.right _, _ =>
      match d.take with
      | (some _, d1) => writeLinesFinal rest d1
      | (none, d1) => writeLinesFinal rest d1.flushState

/-- The removed-side line of each output unit: a context line counts for both
sides, a plain removed line for the left side, and an inline diff consumes
exactly one removed line. -/
def leftLinesOf : List OutLine → List String
  | [] => []
  | OutLine.ctx v :: rest => v :: leftLinesOf rest
  | OutLine.removed v :: rest => v :: leftLinesOf rest
  | OutLine.added _ :: rest => leftLinesOf rest
  | OutLine.inlineDiff del _ :: rest => del :: leftLinesOf rest

/-- The inserted-side line of each output unit. -/
def rightLinesOf : List OutLine → List String
  | [] => []
  | OutLine.ctx v :: rest => v :: rightLinesOf rest
  | OutLine.removed _ :: rest => rightLinesOf rest
  | OutLine.added v :: rest => v :: rightLinesOf rest
  | OutLine.inlineDiff _ ins :: rest => ins :: rightLinesOf rest

/-- Whether a script entry is a removal. -/
def isLeftEntry {α : Type} : DiffResult α → Bool
  | DiffResult.left _ => true
  | _ => false

/-- Whether a script entry is an insertion. -/
def isRightEntry {α : Type} : DiffResult α → Bool
  | DiffResult.right _ => true
  | _ => false

/-- No two adjacent entries of the list both satisfy the predicate. -/
def noTwoAdjacent {α : Type} (p : α → Bool) : List α → Bool
  | [] => true
  | [_] => true
  | a :: b :: rest => (!(p a && p b)) && noTwoAdjacent p (b :: rest)

/-- The legacy deferred-deletion flush (src/src/printer.rs LatentDeletion):
just an optional pending line, no deletion count. -/
def legacyFlushOut (v : Option String) : List OutLine :=
  match v with
  | some d => [OutLine.removed d]
  | none => []

/-- The legacy write_lines walk (src/src/printer.rs): no peeking and no
count, so an insertion always takes whatever single pending deletion exists
and inline-diffs against it. The legacy ansi_term styling emits the same
escape strings as the current yansi styling, so output units render alike. -/
def legacyEvents : List (DiffResult String) → Option String → List OutLine
  | [], v => legacyFlushOut v
  | DiffResult.both x _ :: rest, v =>
    legacyFlushOut v ++ OutLine.ctx x :: legacyEvents rest none
  | DiffResult.right i :: rest, v =>
    match v with
    | some d => OutLine.inlineDiff d i :: legacyEvents rest none
    | none => OutLine.added i :: legacyEvents rest none
  | DiffResult.left d :: rest, v =>
    legacyFlushOut v ++ legacyEvents rest (some d)

/-- The legacy write_lines of src/src/printer.rs. -/
def legacy_write_lines (left right : String) : String :=
  String.join ((legacyEvents (diffLines left right) none).map renderOutLine)

/-- Run a sequence of sink writes, stopping at the first write error. The
sink is the caller-supplied fmt::Write; the error carries no data, like
fmt::Error. -/
def writeChunksE {σ : Type} (w : σ → String → Except Unit σ) : σ → List String → Except Unit σ
  | s, [] => Except.ok s
  | s, c :: cs =>
    match w s c with
    | Except.ok s1 => writeChunksE w s1 cs
    | Except.error e => Except.error e

/-- write_lines against a fallible caller-supplied sink: the walk performs
the same writes in the same order as write_lines and aborts at the first
write error, which fully determines the returned value. -/
def write_linesE {σ : Type} (w : σ → String → Except Unit σ) (s : σ)
    (left right : String) : Except Unit σ :=
  writeChunksE w s
    (((writeLinesEvents (diffLines left right) LatentDeletion.start).map outLineWrites).flatten)

/-- write_inline_diff against a fallible caller-supplied sink: one write per
inline-writer token, aborting at the first write error. -/
def write_inline_diffE {σ : Type} (w : σ → String → Except Unit σ) (s : σ)
    (left right : String) : Except Unit σ :=
  writeChunksE w s ((inlineDiffTokens left right).map renderToken)

/-- A sink that accumulates into a string and never fails, like fmt::Write
for String. -/
def stringSink (s t : String) : Except Unit String := Except.ok (s ++ t)

/-- A sink whose every write fails, like a closed destination. -/
def failSink (_ : Unit) (_ : String) : Except Unit Unit := Except.error ()

/-- The number of style-opening escape writes in a token list. -/
def countOpens (ts : List Token) : Nat :=
  (ts.filter (fun t =>
    match t with
    | Token.openStyle _ => true
    | _ => false)).length

/-- The number of style-closing (reset) escape writes in a token list. -/
def countCloses (ts : List Token) : Nat :=
  (ts.filter (fun t =>
    match t with
    | Token.closeStyle => true
    | _ => false)).length

/-- Whether a script starts with an insertion (what the peek in write_lines
checks for). -/
def headIsRight {α : Type} : List (DiffResult α) → Bool
  | DiffResult.right _ :: _ => true
  | _ => false

/-- Whether a script starts with a removal. -/
def headIsLeft {α : Type} : List (DiffResult α) → Bool
  | DiffResult.left _ :: _ => true
  | _ => false

@[simp] theorem flushOut_mk_some (v : String) (k : Nat) :
    LatentDeletion.flushOut ⟨some v, k⟩ = [OutLine.removed v] := rfl

@[simp] theorem flushOut_mk_none (k : Nat) :
    LatentDeletion.flushOut ⟨none, k⟩ = [] := rfl

@[simp] theorem flushState_mk_some (v : String) (k : Nat) :
    LatentDeletion.flushState ⟨some v, k⟩ = (⟨none, k⟩ : LatentDeletion) := rfl

@[simp] theorem flushState_mk_none (k : Nat) :
    LatentDeletion.flushState ⟨none, k⟩ = (⟨none, 0⟩ : LatentDeletion) := rfl

@[simp] theorem set_mk (v0 : Option String) (k : Nat) (x : String) :
    LatentDeletion.set ⟨v0, k⟩ x = (⟨some x, k + 1⟩ : LatentDeletion) := rfl

theorem writeLinesEvents_nil (d : LatentDeletion) :
    writeLinesEvents [] d = d.flushOut := rfl

theorem writeLinesEvents_both (v w : String) (rest : List (DiffResult String))
    (d : LatentDeletion) :
    writeLinesEvents (DiffResult.both v w :: rest) d =
      d.flushOut ++ OutLine.ctx v :: writeLinesEvents rest d.flushState := rfl

theorem writeLinesEvents_left (x : String) (rest : List (DiffResult String))
    (d : LatentDeletion) :
    writeLinesEvents (DiffResult.left x :: rest) d =
      d.flushOut ++ writeLinesEvents rest (d.flushState.set x) := rfl

theorem writeLinesEvents_right_peek (i j : String) (rest : List (DiffResult String))
    (d : LatentDeletion) :
    writeLinesEvents (DiffResult.right i :: DiffResult.right j :: rest) d =
      d.flushOut ++ OutLine.added i ::
        writeLinesEvents (DiffResult.right j :: rest) d.flushState := rfl

theorem writeLinesEvents_right (i : String) (rest : List (DiffResult String))
    (d : LatentDeletion) (h : headIsRight rest = false) :
    writeLinesEvents (DiffResult.right i :: rest) d =
      match d.take with
      | (some del, d1) => OutLine.inlineDiff del i :: writeLinesEvents rest d1
      | (none, d1) => d1.flushOut ++ OutLine.added i :: writeLinesEvents rest d1.flushState := by
  cases rest with
  | nil => rfl
  | cons c r =>
    cases c with
    | both a b => rfl
    | left a => rfl
    | right a => simp [headIsRight] at h

theorem take_of_count_one (v : Option String) :
    LatentDeletion.take ⟨v, 1⟩ = (v, (⟨none, 1⟩ : LatentDeletion)) := rfl

theorem take_of_count_ne (v : Option String) (k : Nat) (h : k ≠ 1) :
    LatentDeletion.take ⟨v, k⟩ = (none, (⟨v, k⟩ : LatentDeletion)) := by
  simp [LatentDeletion.take, h]

@[simp] theorem scriptLefts_nil {α : Type} : scriptLefts ([] : List (DiffResult α)) = [] := rfl

@[simp] theorem scriptLefts_both {α : Type} (v w : α) (rest : List (DiffResult α)) :
    scriptLefts (DiffResult.both v w :: rest) = v :: scriptLefts rest := rfl

@[simp] theorem scriptLefts_left {α : Type} (v : α) (rest : List (DiffResult α)) :
    scriptLefts (DiffResult.left v :: rest) = v :: scriptLefts rest := rfl

@[simp] theorem scriptLefts_right {α : Type} (v : α) (rest : List (DiffResult α)) :
    scriptLefts (DiffResult.right v :: rest) = scriptLefts rest := rfl

@[simp] theorem scriptRights_nil {α : Type} : scriptRights ([] : List (DiffResult α)) = [] := rfl

@[simp] theorem scriptRights_both {α : Type} (v w : α) (rest : List (DiffResult α)) :
    scriptRights (DiffResult.both v w :: rest) = w :: scriptRights rest := rfl

@[simp] theorem scriptRights_left {α : Type} (v : α) (rest : List (DiffResult α)) :
    scriptRights (DiffResult.left v :: rest) = scriptRights rest := rfl

@[simp] theorem scriptRights_right {α : Type} (v : α) (rest : List (DiffResult α)) :
    scriptRights (DiffResult.right v :: rest) = v :: scriptRights rest := rfl

theorem scriptLefts_append {α : Type} (l1 l2 : List (DiffResult α)) :
    scriptLefts (l1 ++ l2) = scriptLefts l1 ++ scriptLefts l2 := by
  induction l1 with
  | nil => rfl
  | cons c rest ih => cases c <;> simp [ih]

theorem scriptRights_append {α : Type} (l1 l2 : List (DiffResult α)) :
    scriptRights (l1 ++ l2) = scriptRights l1 ++ scriptRights l2 := by
  induction l1 with
  | nil => rfl
  | cons c rest ih => cases c <;> simp [ih]

theorem scriptLefts_map_right {α : Type} (ys : List α) :
    scriptLefts (ys.map DiffResult.right) = [] := by
  induction ys with
  | nil => rfl
  | cons y ys ih => simp [ih]

theorem scriptRights_map_right {α : Type} (ys : List α) :
    scriptRights (ys.map DiffResult.right) = ys := by
  induction ys with
  | nil => rfl
  | cons y ys ih => simp [ih]

/-- The removed-side projection of the modelled diff primitive is exactly the
left input sequence. -/
theorem scriptLefts_diffAux {α : Type} [DecidableEq α] :
    ∀ (f : Nat) (xs ys : List α), xs.length + ys.length ≤ f →
      scriptLefts (diffAux f xs ys) = xs := by
  intro f
  induction f with
  | zero =>
    intro xs ys h
    have hx : xs = [] := by
      cases xs with
      | nil => rfl
      | cons a l => simp at h
    have hy : ys = [] := by
      cases ys with
      | nil => rfl
      | cons a l => simp at h
    subst hx; subst hy; rfl
  | succ f ih =>
    intro xs ys h
    cases xs with
    | nil => simp [diffAux, scriptLefts_map_right]
    | cons x xs =>
      cases ys with
      | nil =>
        simp only [diffAux, scriptLefts_left]
        have : xs.length + ([] : List α).length ≤ f := by simp at h ⊢; omega
        rw [ih xs [] this]
      | cons y ys =>
        simp only [diffAux]
        by_cases hxy : x = y
        · simp only [if_pos hxy, scriptLefts_both]
          have : xs.length + ys.length ≤ f := by simp at h; omega
          rw [ih xs ys this]
        · simp only [if_neg hxy]
          by_cases hc : lcsLen f (x :: xs) ys ≤ lcsLen f xs (y :: ys)
          · simp only [if_pos hc, scriptLefts_left]
            have : xs.length + (y :: ys).length ≤ f := by simp at h ⊢; omega
            rw [ih xs (y :: ys) this]
          · simp only [if_neg hc, scriptLefts_right]
            have : (x :: xs).length + ys.length ≤ f := by simp at h ⊢; omega
            rw [ih (x :: xs) ys this]

/-- The inserted-side projection of the modelled diff primitive is exactly
the right input sequence. -/
theorem scriptRights_diffAux {α : Type} [DecidableEq α] :
    ∀ (f : Nat) (xs ys : List α), xs.length + ys.length ≤ f →
      scriptRights (diffAux f xs ys) = ys := by
  intro f
  induction f with
  | zero =>
    intro xs ys h
    have hx : xs = [] := by
      cases xs with
      | nil => rfl
      | cons a l => simp at h
    have hy : ys = [] := by
      cases ys with
      | nil => rfl
      | cons a l => simp at h
    subst hx; subst hy; rfl
  | succ f ih =>
    intro xs ys h
    cases xs with
    | nil => simp [diffAux, scriptRights_map_right]
    | cons x xs =>
      cases ys with
      | nil =>
        simp only [diffAux, scriptRights_left]
        have : xs.length + ([] : List α).length ≤ f := by simp at h ⊢; omega
        rw [ih xs [] this]
      | cons y ys =>
        simp only [diffAux]
        by_cases hxy : x = y
        · simp only [if_pos hxy, scriptRights_both]
          have : xs.length + ys.length ≤ f := by simp at h; omega
          rw [ih xs ys this]
        · simp only [if_neg hxy]
          by_cases hc : lcsLen f (x :: xs) ys ≤ lcsLen f xs (y :: ys)
          · simp only [if_pos hc, scriptRights_left]
            have : xs.length + (y :: ys).length ≤ f := by simp at h ⊢; omega
            rw [ih xs (y :: ys) this]
          · simp only [if_neg hc, scriptRights_right]
            have : (x :: xs).length + ys.length ≤ f := by simp at h ⊢; omega
            rw [ih (x :: xs) ys this]

theorem scriptLefts_diffSlice {α : Type} [DecidableEq α] (xs ys : List α) :
    scriptLefts (diffSlice xs ys) = xs :=
  scriptLefts_diffAux (xs.length + ys.length) xs ys (Nat.le_refl _)

theorem scriptRights_diffSlice {α : Type} [DecidableEq α] (xs ys : List α) :
    scriptRights (diffSlice xs ys) = ys :=
  scriptRights_diffAux (xs.length + ys.length) xs ys (Nat.le_refl _)

theorem leftLinesOf_append (l1 l2 : List OutLine) :
    leftLinesOf (l1 ++ l2) = leftLinesOf l1 ++ leftLinesOf l2 := by
  induction l1 with
  | nil => rfl
  | cons e rest ih => cases e <;> simp [leftLinesOf, ih]

theorem rightLinesOf_append (l1 l2 : List OutLine) :
    rightLinesOf (l1 ++ l2) = rightLinesOf l1 ++ rightLinesOf l2 := by
  induction l1 with
  | nil => rfl
  | cons e rest ih => cases e <;> simp [rightLinesOf, ih]

/-- The removed-side lines of the walk's output are the pending removed line
followed by the removed-side lines of the script, in order. -/
theorem leftLinesOf_events :
    ∀ (script : List (DiffResult String)) (d : LatentDeletion),
      leftLinesOf (writeLinesEvents script d) = d.value.toList ++ scriptLefts script
  | [], d => by
    obtain ⟨v, k⟩ := d
    cases v <;> simp [writeLinesEvents_nil, leftLinesOf]
  | DiffResult.both a b :: rest, d => by
    obtain ⟨v, k⟩ := d
    cases v <;>
      simp [writeLinesEvents_both, leftLinesOf_append, leftLinesOf,
        leftLinesOf_events rest]
  | DiffResult.left x :: rest, d => by
    obtain ⟨v, k⟩ := d
    cases v <;>
      simp [writeLinesEvents_left, leftLinesOf_append, leftLinesOf,
        leftLinesOf_events rest]
  | [DiffResult.right i], d => by
    obtain ⟨v, k⟩ := d
    by_cases hk : k = 1
    · subst hk
      cases v <;> simp [writeLinesEvents, LatentDeletion.take, leftLinesOf]
    · cases v <;> simp [writeLinesEvents, LatentDeletion.take, hk, leftLinesOf]
  | DiffResult.right i :: DiffResult.right j :: r2, d => by
    obtain ⟨v, k⟩ := d
    cases v <;>
      simp [writeLinesEvents_right_peek, leftLinesOf_append, leftLinesOf,
        leftLinesOf_events (DiffResult.right j :: r2), leftLinesOf_events r2]
  | DiffResult.right i :: DiffResult.both a b :: r2, d => by
    obtain ⟨v, k⟩ := d
    by_cases hk : k = 1
    · subst hk
      cases v <;>
        simp [writeLinesEvents, LatentDeletion.take, leftLinesOf_append, leftLinesOf,
          leftLinesOf_events r2]
    · cases v <;>
        simp [writeLinesEvents, LatentDeletion.take, hk, leftLinesOf_append, leftLinesOf,
          leftLinesOf_events r2]
  | DiffResult.right i :: DiffResult.left x :: r2, d => by
    obtain ⟨v, k⟩ := d
    by_cases hk : k = 1
    · subst hk
      cases v <;>
        simp [writeLinesEvents, LatentDeletion.take, leftLinesOf_append, leftLinesOf,
          leftLinesOf_events r2]
    · cases v <;>
        simp [writeLinesEvents, LatentDeletion.take, hk, leftLinesOf_append, leftLinesOf,
          leftLinesOf_events r2]

/-- The inserted-side lines of the walk's output are exactly the
inserted-side lines of the script, in order, for scripts whose equal entries
carry the same line on both sides (as any real edit script does). -/
theorem rightLinesOf_events :
    ∀ (script : List (DiffResult String)) (d : LatentDeletion),
      (∀ a b, DiffResult.both a b ∈ script → a = b) →
      rightLinesOf (writeLinesEvents script d) = scriptRights script
  | [], d, _ => by
    obtain ⟨v, k⟩ := d
    cases v <;> simp [writeLinesEvents_nil, rightLinesOf]
  | DiffResult.both a b :: rest, d, h => by
    obtain ⟨v, k⟩ := d
    have hab : a = b := h a b (List.mem_cons_self _ _)
    have h2 : ∀ a b, DiffResult.both a b ∈ rest → a = b :=
      fun a b hm => h a b (List.mem_cons_of_mem _ hm)
    subst hab
    cases v <;>
      simp [writeLinesEvents_both, rightLinesOf_append, rightLinesOf,
        rightLinesOf_events rest _ h2]
  | DiffResult.left x :: rest, d, h => by
    obtain ⟨v, k⟩ := d
    have h2 : ∀ a b, DiffResult.both a b ∈ rest → a = b :=
      fun a b hm => h a b (List.mem_cons_of_mem _ hm)
    cases v <;>
      simp [writeLinesEvents_left, rightLinesOf_append, rightLinesOf,
        rightLinesOf_events rest _ h2]
  | [DiffResult.right i], d, _ => by
    obtain ⟨v, k⟩ := d
    by_cases hk : k = 1
    · subst hk
      cases v <;> simp [writeLinesEvents, LatentDeletion.take, rightLinesOf]
    · cases v <;> simp [writeLinesEvents, LatentDeletion.take, hk, rightLinesOf]
  | DiffResult.right i :: DiffResult.right j :: r2, d, h => by
    obtain ⟨v, k⟩ := d
    have h2 : ∀ a b, DiffResult.both a b ∈ DiffResult.right j :: r2 → a = b :=
      fun a b hm => h a b (List.mem_cons_of_mem _ hm)
    cases v <;>
      simp [writeLinesEvents_right_peek, rightLinesOf_append, rightLinesOf,
        rightLinesOf_events (DiffResult.right j :: r2) _ h2]
  | DiffResult.right i :: DiffResult.both a b :: r2, d, h => by
    obtain ⟨v, k⟩ := d
    have hab : a = b := h a b (List.mem_cons_of_mem _ (List.mem_cons_self _ _))
    have h2 : ∀ a b, DiffResult.both a b ∈ r2 → a = b :=
      fun a b hm => h a b (List.mem_cons_of_mem _ (List.mem_cons_of_mem _ hm))
    subst hab
    by_cases hk : k = 1
    · subst hk
      cases v <;>
        simp [writeLinesEvents, LatentDeletion.take, rightLinesOf_append, rightLinesOf,
          rightLinesOf_events r2 _ h2]
    · cases v <;>
        simp [writeLinesEvents, LatentDeletion.take, hk, rightLinesOf_append, rightLinesOf,
          rightLinesOf_events r2 _ h2]
  | DiffResult.right i :: DiffResult.left x :: r2, d, h => by
    obtain ⟨v, k⟩ := d
    have h2 : ∀ a b, DiffResult.both a b ∈ r2 → a = b :=
      fun a b hm => h a b (List.mem_cons_of_mem _ (List.mem_cons_of_mem _ hm))
    by_cases hk : k = 1
    · subst hk
      cases v <;>
        simp [writeLinesEvents, LatentDeletion.take, rightLinesOf_append, rightLinesOf,
          rightLinesOf_events r2 _ h2]
    · cases v <;>
        simp [writeLinesEvents, LatentDeletion.take, hk, rightLinesOf_append, rightLinesOf,
          rightLinesOf_events r2 _ h2]

/-- The modelled diff primitive marks two lines equal only when they are. -/
theorem diffAux_both_eq {α : Type} [DecidableEq α] :
    ∀ (f : Nat) (xs ys : List α) (a b : α),
      DiffResult.both a b ∈ diffAux f xs ys → a = b := by
  intro f
  induction f with
  | zero => intro xs ys a b h; simp [diffAux] at h
  | succ f ih =>
    intro xs ys a b h
    cases xs with
    | nil =>
      simp only [diffAux] at h
      obtain ⟨y, _, hy⟩ := List.mem_map.mp h
      exact absurd hy (by simp)
    | cons x xs =>
      cases ys with
      | nil =>
        simp only [diffAux, List.mem_cons] at h
        rcases h with h | h
        · exact absurd h (by simp)
        · exact ih xs [] a b h
      | cons y ys =>
        simp only [diffAux] at h
        by_cases hxy : x = y
        · rw [if_pos hxy] at h
          rcases List.mem_cons.mp h with h | h
          · obtain ⟨h1, h2⟩ : a = x ∧ b = y := by
              constructor <;> { injection h.symm with e1 e2; simp [e1, e2] }
            rw [h1, h2]; exact hxy
          · exact ih xs ys a b h
        · rw [if_neg hxy] at h
          by_cases hc : lcsLen f (x :: xs) ys ≤ lcsLen f xs (y :: ys)
          · rw [if_pos hc] at h
            rcases List.mem_cons.mp h with h | h
            · exact absurd h (by simp)
            · exact ih xs (y :: ys) a b h
          · rw [if_neg hc] at h
            rcases List.mem_cons.mp h with h | h
            · exact absurd h (by simp)
            · exact ih (x :: xs) ys a b h

/-- The modelled diff::lines marks two lines equal only when they are. -/
theorem diffLines_both_eq (l r : String) :
    ∀ a b, DiffResult.both a b ∈ diffLines l r → a = b := by
  intro a b h
  unfold diffLines at h
  cases hl : endsNl l <;> cases hr : endsNl r <;> rw [hl, hr] at h <;>
    simp only [List.mem_append, List.mem_singleton] at h <;>
    first
    | exact diffAux_both_eq _ _ _ a b h
    | rcases h with h | h
      · exact diffAux_both_eq _ _ _ a b h
      · first
        | { injection h with e1 e2; rw [e1, e2] }
        | exact absurd h (by simp)

theorem splitNl_ne_nil : ∀ (cs : List Char), splitNl cs ≠ [] := by
  intro cs
  cases cs with
  | nil => simp [splitNl]
  | cons c rest =>
    by_cases h : c = '\n'
    · simp [splitNl, h]
    · simp only [splitNl, if_neg h]
      cases hs : splitNl rest <;> simp

theorem splitNl_eq_singleton_nil : ∀ (cs : List Char), splitNl cs = [[]] → cs = [] := by
  intro cs h
  cases cs with
  | nil => rfl
  | cons c rest =>
    exfalso
    by_cases hc : c = '\n'
    · simp only [splitNl, if_pos hc] at h
      exact splitNl_ne_nil rest (by simpa using h)
    · simp only [splitNl, if_neg hc] at h
      cases hs : splitNl rest with
      | nil => exact splitNl_ne_nil rest hs
      | cons l ls => rw [hs] at h; simp at h

theorem splitNl_cons_nl (rest : List Char) : splitNl ('\n' :: rest) = [] :: splitNl rest := by
  simp [splitNl]

theorem splitNl_cons_of_ne (c : Char) (rest : List Char) (h : ¬ c = '\n') :
    splitNl (c :: rest) =
      match splitNl rest with
      | [] => [[c]]
      | l :: ls => (c :: l) :: ls := by
  rw [show splitNl (c :: rest) =
      (if c = '\n' then [] :: splitNl rest
       else match splitNl rest with
       | [] => [[c]]
       | l :: ls => (c :: l) :: ls) from rfl]
  rw [if_neg h]

/-- A character list ending in a newline splits into parts ending with an
empty part. -/
theorem splitNl_ends :
    ∀ (cs : List Char), cs.getLast? = some '\n' → ∃ ps, splitNl cs = ps ++ [[]] := by
  intro cs
  induction cs with
  | nil => simp
  | cons c rest ih =>
    intro h
    cases rest with
    | nil =>
      simp at h
      subst h
      exact ⟨[[]], rfl⟩
    | cons c2 r2 =>
      rw [List.getLast?_cons_cons] at h
      obtain ⟨ps, hps⟩ := ih h
      by_cases hc : c = '\n'
      · subst hc
        exact ⟨[] :: ps, by rw [splitNl_cons_nl, hps]; simp⟩
      · cases hpse : ps with
        | nil =>
          exfalso
          rw [hpse] at hps
          exact List.cons_ne_nil c2 r2 (splitNl_eq_singleton_nil _ (by simpa using hps))
        | cons p ps' =>
          rw [hpse] at hps
          refine ⟨(c :: p) :: ps', ?_⟩
          rw [splitNl_cons_of_ne c _ hc, hps]
          rfl

/-- The spec's physical-line split is the str::lines split plus a trailing
empty line when the text ends in a newline. -/
theorem splitLines_eq_strLines (s : String) :
    splitLines s = strLines s ++ (if endsNl s then [""] else []) := by
  cases he : endsNl s
  · simp [strLines, he]
  · simp only [strLines, he, if_true]
    have hd : s.data.getLast? = some '\n' := by
      simpa [endsNl] using he
    have hne : s.data ≠ [] := by
      intro h0; rw [h0] at hd; simp at hd
    obtain ⟨ps, hps⟩ := splitNl_ends s.data hd
    have h1 : splitLines s = (splitNl s.data).map String.mk := by
      unfold splitLines
      cases hsd : s.data with
      | nil => exact absurd hsd hne
      | cons a l => rfl
    rw [h1, hps]
    simp [List.dropLast_concat]

theorem scriptLefts_diffLines (l r : String) :
    scriptLefts (diffLines l r) = splitLines l := by
  rw [splitLines_eq_strLines l]
  unfold diffLines
  cases hl : endsNl l <;> cases hr : endsNl r <;>
    simp [scriptLefts_append, scriptLefts_diffSlice, scriptLefts, hl, hr]

theorem scriptRights_diffLines (l r : String) :
    scriptRights (diffLines l r) = splitLines r := by
  rw [splitLines_eq_strLines r]
  unfold diffLines
  cases hl : endsNl l <;> cases hr : endsNl r <;>
    simp [scriptRights_append, scriptRights_diffSlice, scriptRights, hl, hr]

theorem renderOutLine_ctx (v : String) :
    renderOutLine (OutLine.ctx v) = " " ++ v ++ "\n" := by
  simp [renderOutLine, outLineWrites, String.join, String.empty_append]

theorem renderOutLine_removed (v : String) :
    renderOutLine (OutLine.removed v) = "\x1b[31m" ++ "<" ++ v ++ "\x1b[0m" ++ "\n" := by
  simp only [renderOutLine, outLineWrites, String.join, List.foldl, String.empty_append]
  simp [SIGN_LEFT, String.append_assoc]
  rfl

theorem renderOutLine_added (v : String) :
    renderOutLine (OutLine.added v) = "\x1b[32m" ++ ">" ++ v ++ "\x1b[0m" ++ "\n" := by
  simp only [renderOutLine, outLineWrites, String.join, List.foldl, String.empty_append]
  simp [SIGN_RIGHT, String.append_assoc]
  rfl

theorem renderOutLine_inline (del ins : String) :
    renderOutLine (OutLine.inlineDiff del ins) = write_inline_diff del ins := rfl

theorem pendingCount_le_one (st : LatentDeletion) : pendingCount st ≤ 1 := by
  obtain ⟨v, k⟩ := st
  cases v <;> simp [pendingCount]

theorem writeLinesFinal_nil (d : LatentDeletion) :
    writeLinesFinal [] d = d.flushState := rfl

theorem writeLinesFinal_both (v w : String) (rest : List (DiffResult String))
    (d : LatentDeletion) :
    writeLinesFinal (DiffResult.both v w :: rest) d = writeLinesFinal rest d.flushState := rfl

theorem writeLinesFinal_left (x : String) (rest : List (DiffResult String))
    (d : LatentDeletion) :
    writeLinesFinal (DiffResult.left x :: rest) d =
      writeLinesFinal rest (d.flushState.set x) := rfl

theorem writeLinesFinal_right_peek (i j : String) (rest : List (DiffResult String))
    (d : LatentDeletion) :
    writeLinesFinal (DiffResult.right i :: DiffResult.right j :: rest) d =
      writeLinesFinal (DiffResult.right j :: rest) d.flushState := rfl

theorem writeLinesFinal_right (i : String) (rest : List (DiffResult String))
    (d : LatentDeletion) (h : headIsRight rest = false) :
    writeLinesFinal (DiffResult.right i :: rest) d =
      match d.take with
      | (some _, d1) => writeLinesFinal rest d1
      | (none, d1) => writeLinesFinal rest d1.flushState := by
  cases rest with
  | nil => rfl
  | cons c r =>
    cases c with
    | both a b => rfl
    | left a => rfl
    | right a => simp [headIsRight] at h

/-- After the final flush the deferred-deletion buffer is always empty. -/
theorem writeLinesFinal_value :
    ∀ (script : List (DiffResult String)) (d : LatentDeletion),
      (writeLinesFinal script d).value = none := by
  intro script
  induction script with
  | nil =>
    intro d
    obtain ⟨v, k⟩ := d
    cases v <;> rfl
  | cons c rest ih =>
    intro d
    cases c with
    | both a b => rw [writeLinesFinal_both]; exact ih _
    | left x => rw [writeLinesFinal_left]; exact ih _
    | right i =>
      cases hr : headIsRight rest with
      | true =>
        obtain ⟨j, r2, rfl⟩ : ∃ j r2, rest = DiffResult.right j :: r2 := by
          cases rest with
          | nil => simp [headIsRight] at hr
          | cons c2 r2 =>
            cases c2 with
            | right j => exact ⟨j, r2, rfl⟩
            | both a b => simp [headIsRight] at hr
            | left a => simp [headIsRight] at hr
        rw [writeLinesFinal_right_peek]
        exact ih _
      | false =>
        rw [writeLinesFinal_right i rest d hr]
        rcases htake : d.take with ⟨o, d1⟩
        cases o <;> simp only [] <;> exact ih _

theorem dropLast_concat_getLastD {α : Type} :
    ∀ (d0 : α) (ds : List α), (d0 :: ds).dropLast ++ [ds.getLastD d0] = d0 :: ds
  | _, [] => rfl
  | d0, d1 :: ds' => by
    rw [List.getLastD_cons,
      show (d0 :: d1 :: ds').dropLast = d0 :: (d1 :: ds').dropLast from rfl,
      List.cons_append, dropLast_concat_getLastD d1 ds']

/-- Peeling a run of deferred deletions: each new deletion flushes the
previous one plainly; afterwards the last deletion of the run is pending and
the count has grown by the length of the run. -/
theorem events_pending_lefts :
    ∀ (ds : List String) (d0 : String) (k : Nat) (rest : List (DiffResult String)),
      writeLinesEvents (ds.map DiffResult.left ++ rest) ⟨some d0, k⟩ =
        (d0 :: ds).dropLast.map OutLine.removed ++
          writeLinesEvents rest ⟨some (ds.getLastD d0), k + ds.length⟩
  | [], d0, k, rest => by simp
  | d1 :: ds', d0, k, rest => by
    rw [List.map_cons, List.cons_append, writeLinesEvents_left]
    simp only [flushOut_mk_some, flushState_mk_some, set_mk]
    rw [events_pending_lefts ds' d1 (k + 1) rest, List.getLastD_cons]
    have harith : k + 1 + ds'.length = k + (d1 :: ds').length := by
      simp only [List.length_cons]; omega
    rw [harith,
      show (d0 :: d1 :: ds').dropLast = d0 :: (d1 :: ds').dropLast from rfl,
      List.map_cons, List.cons_append]
    rfl

/-- Peeling a run of insertions with no pending deletion: every line is
printed plainly in added style and the count is reset. -/
theorem events_plain_rights :
    ∀ (ins : List String) (i0 : String) (c : Nat) (rest : List (DiffResult String)),
      headIsRight rest = false →
      writeLinesEvents (DiffResult.right i0 :: (ins.map DiffResult.right ++ rest))
          ⟨none, c⟩ =
        OutLine.added i0 :: (ins.map OutLine.added ++ writeLinesEvents rest ⟨none, 0⟩)
  | [], i0, c, rest, h => by
    simp only [List.map_nil, List.nil_append]
    rw [writeLinesEvents_right i0 rest ⟨none, c⟩ h]
    by_cases hk : c = 1
    · subst hk
      rw [take_of_count_one]
      simp
    · rw [take_of_count_ne _ _ hk]
      simp
  | i1 :: ins', i0, c, rest, h => by
    simp only [List.map_cons, List.cons_append]
    rw [writeLinesEvents_right_peek]
    simp only [flushOut_mk_none, flushState_mk_none, List.nil_append]
    rw [events_plain_rights ins' i1 0 rest h]

/-- An isolated single deletion followed by a single insertion produces
exactly one inline-diffed line pair. -/
theorem events_inline_pair (d0 i0 : String) (c : Nat) (rest : List (DiffResult String))
    (h : headIsRight rest = false) :
    writeLinesEvents (DiffResult.left d0 :: DiffResult.right i0 :: rest) ⟨none, c⟩ =
      OutLine.inlineDiff d0 i0 :: writeLinesEvents rest ⟨none, 1⟩ := by
  rw [writeLinesEvents_left]
  simp only [flushOut_mk_none, flushState_mk_none, set_mk, List.nil_append, Nat.zero_add]
  rw [writeLinesEvents_right i0 rest _ h, take_of_count_one]

theorem map_removed_assemble (d0 : String) (ds' : List String) (tail : List OutLine) :
    (d0 :: ds').dropLast.map OutLine.removed ++
      (OutLine.removed (ds'.getLastD d0) :: tail) =
    (d0 :: ds').map OutLine.removed ++ tail := by
  rw [show OutLine.removed (ds'.getLastD d0) :: tail =
      [OutLine.removed (ds'.getLastD d0)] ++ tail from rfl,
    show [OutLine.removed (ds'.getLastD d0)] =
      List.map OutLine.removed [ds'.getLastD d0] from rfl,
    ← List.append_assoc, ← List.map_append, dropLast_concat_getLastD]

/-- A removed run next to an inserted run where either side spans more than
one line renders as plain whole-line removals followed by plain whole-line
additions, with no inline diffing. -/
theorem events_hunk_plain :
    ∀ (ds ins : List String) (c : Nat) (rest : List (DiffResult String)),
      ds ≠ [] → ins ≠ [] → (1 < ds.length ∨ 1 < ins.length) → headIsRight rest = false →
      ∃ c', writeLinesEvents
          (ds.map DiffResult.left ++ (ins.map DiffResult.right ++ rest)) ⟨none, c⟩ =
        ds.map OutLine.removed ++
          (ins.map OutLine.added ++ writeLinesEvents rest ⟨none, c'⟩) := by
  intro ds ins c rest hds hins hlen hrest
  obtain ⟨d0, ds', rfl⟩ : ∃ d0 ds', ds = d0 :: ds' := by
    cases ds with
    | nil => exact absurd rfl hds
    | cons a l => exact ⟨a, l, rfl⟩
  obtain ⟨i0, ins', rfl⟩ : ∃ i0 ins', ins = i0 :: ins' := by
    cases ins with
    | nil => exact absurd rfl hins
    | cons a l => exact ⟨a, l, rfl⟩
  simp only [List.map_cons, List.cons_append]
  rw [writeLinesEvents_left]
  simp only [flushOut_mk_none, flushState_mk_none, set_mk, List.nil_append, Nat.zero_add]
  rw [events_pending_lefts ds' d0 1 _]
  cases ins' with
  | nil =>
    have hds' : ds' ≠ [] := by
      rcases hlen with h1 | h1
      · intro h0
        rw [h0] at h1
        simp at h1
      · simp at h1
    have hn : 1 + ds'.length ≠ 1 := by
      cases ds' with
      | nil => exact absurd rfl hds'
      | cons a l => simp
    simp only [List.map_nil, List.nil_append]
    rw [writeLinesEvents_right i0 rest _ hrest, take_of_count_ne _ _ hn]
    refine ⟨1 + ds'.length, ?_⟩
    simp only [flushOut_mk_some, flushState_mk_some, List.singleton_append,
      List.cons_append, List.nil_append]
    rw [map_removed_assemble]
    simp
  | cons i1 ins'' =>
    simp only [List.map_cons, List.cons_append]
    rw [writeLinesEvents_right_peek]
    simp only [flushOut_mk_some, flushState_mk_some, List.singleton_append,
      List.cons_append]
    rw [events_plain_rights ins'' i1 _ rest hrest]
    refine ⟨0, ?_⟩
    rw [map_removed_assemble]
    simp


/-- An isolated replaced line pair inside a script: a removed line not
preceded by another removed line, directly followed by an inserted line not
followed by another inserted line. -/
def isolatedPair (x y : String) (script : List (DiffResult String)) : Prop :=
  ∃ pre post, script = pre ++ DiffResult.left x :: DiffResult.right y :: post ∧
    (∀ z, pre.getLast? ≠ some (DiffResult.left z)) ∧
    (∀ z, post.head? ≠ some (DiffResult.right z))

/-- An isolated replaced line pair occurring strictly after the first script
entry. -/
def isolatedPairDeep (x y : String) (script : List (DiffResult String)) : Prop :=
  ∃ pre post, script = pre ++ DiffResult.left x :: DiffResult.right y :: post ∧
    pre ≠ [] ∧
    (∀ z, pre.getLast? ≠ some (DiffResult.left z)) ∧
    (∀ z, post.head? ≠ some (DiffResult.right z))

theorem isolatedPairDeep_pair (x y : String) (script : List (DiffResult String)) :
    isolatedPairDeep x y script → isolatedPair x y script := by
  rintro ⟨pre, post, heq, _, hpre, hpost⟩
  exact ⟨pre, post, heq, hpre, hpost⟩

theorem isolatedPair_cons_deep (x y : String) (c : DiffResult String)
    (hc : ∀ z, c ≠ DiffResult.left z) (script : List (DiffResult String)) :
    isolatedPair x y script → isolatedPairDeep x y (c :: script) := by
  rintro ⟨pre, post, heq, hpre, hpost⟩
  refine ⟨c :: pre, post, by rw [heq]; rfl, by simp, ?_, hpost⟩
  intro z
  cases pre with
  | nil => simpa using hc z
  | cons p pr =>
    rw [List.getLast?_cons_cons]
    exact hpre z

theorem isolatedPairDeep_cons (x y : String) (c : DiffResult String)
    (script : List (DiffResult String)) :
    isolatedPairDeep x y script → isolatedPairDeep x y (c :: script) := by
  rintro ⟨pre, post, heq, hne, hpre, hpost⟩
  refine ⟨c :: pre, post, by rw [heq]; rfl, by simp, ?_, hpost⟩
  intro z
  cases pre with
  | nil => exact absurd rfl hne
  | cons p pr =>
    rw [List.getLast?_cons_cons]
    exact hpre z

theorem headIsRight_false_head? (rest : List (DiffResult String))
    (h : headIsRight rest = false) :
    ∀ z, rest.head? ≠ some (DiffResult.right z) := by
  intro z
  cases rest with
  | nil => simp
  | cons c r =>
    cases c with
    | both a b => simp
    | left a => simp
    | right a => simp [headIsRight] at h

/-- Joint characterisation of inline-diff occurrences in the walk output:
with an empty buffer an inline diff arises only at an isolated
single-removed-then-single-inserted adjacency; with a pending removed line it
can additionally arise immediately when exactly one removed line is pending
and the script starts with a lone insertion. -/
theorem inline_mem_aux :
    ∀ (n : Nat),
      (∀ (script : List (DiffResult String)) (c : Nat) (x y : String),
        script.length ≤ n →
        OutLine.inlineDiff x y ∈ writeLinesEvents script ⟨none, c⟩ →
        isolatedPair x y script) ∧
      (∀ (script : List (DiffResult String)) (d0 : String) (k : Nat) (x y : String),
        script.length ≤ n → 1 ≤ k →
        OutLine.inlineDiff x y ∈ writeLinesEvents script ⟨some d0, k⟩ →
        (k = 1 ∧ x = d0 ∧ ∃ post, script = DiffResult.right y :: post ∧
          (∀ z, post.head? ≠ some (DiffResult.right z))) ∨
        isolatedPairDeep x y script) := by
  intro n
  induction n with
  | zero =>
    constructor
    · intro script c x y hlen hmem
      rw [List.length_eq_zero.mp (Nat.le_zero.mp hlen)] at hmem
      simp [writeLinesEvents_nil] at hmem
    · intro script d0 k x y hlen _ hmem
      rw [List.length_eq_zero.mp (Nat.le_zero.mp hlen)] at hmem
      simp [writeLinesEvents_nil] at hmem
  | succ n ih =>
    obtain ⟨ihA, ihB⟩ := ih
    constructor
    · intro script c x y hlen hmem
      cases script with
      | nil => simp [writeLinesEvents_nil] at hmem
      | cons c0 rest =>
        have hrl : rest.length ≤ n := by
          simp only [List.length_cons] at hlen; omega
        cases c0 with
        | both a b =>
          rw [writeLinesEvents_both] at hmem
          simp only [flushOut_mk_none, flushState_mk_none, List.nil_append,
            List.mem_cons] at hmem
          rcases hmem with hmem | hmem
          · exact absurd hmem (by simp)
          · exact isolatedPairDeep_pair _ _ _
              (isolatedPair_cons_deep x y _ (by simp) rest (ihA rest 0 x y hrl hmem))
        | left dl =>
          rw [writeLinesEvents_left] at hmem
          simp only [flushOut_mk_none, flushState_mk_none, set_mk, List.nil_append,
            Nat.zero_add] at hmem
          rcases ihB rest dl 1 x y hrl (Nat.le_refl 1) hmem with
            ⟨_, hxd, post, hpost, hnr⟩ | hdeep
          · subst hxd
            exact ⟨[], post, by rw [hpost]; rfl, by simp, hnr⟩
          · exact isolatedPairDeep_pair _ _ _ (isolatedPairDeep_cons x y _ rest hdeep)
        | right i0 =>
          cases hr : headIsRight rest with
          | true =>
            obtain ⟨j, r2, rfl⟩ : ∃ j r2, rest = DiffResult.right j :: r2 := by
              cases rest with
              | nil => simp [headIsRight] at hr
              | cons c2 r2 =>
                cases c2 with
                | right j => exact ⟨j, r2, rfl⟩
                | both a b => simp [headIsRight] at hr
                | left a => simp [headIsRight] at hr
            rw [writeLinesEvents_right_peek] at hmem
            simp only [flushOut_mk_none, flushState_mk_none, List.nil_append,
              List.mem_cons] at hmem
            rcases hmem with hmem | hmem
            · exact absurd hmem (by simp)
            · exact isolatedPairDeep_pair _ _ _
                (isolatedPair_cons_deep x y _ (by simp) _
                  (ihA _ 0 x y hrl hmem))
          | false =>
            rw [writeLinesEvents_right i0 rest _ hr] at hmem
            by_cases hk : c = 1
            · subst hk
              rw [take_of_count_one] at hmem
              simp only [flushOut_mk_none, flushState_mk_none, List.nil_append,
                List.mem_cons] at hmem
              rcases hmem with hmem | hmem
              · exact absurd hmem (by simp)
              · exact isolatedPairDeep_pair _ _ _
                  (isolatedPair_cons_deep x y _ (by simp) rest (ihA rest 0 x y hrl hmem))
            · rw [take_of_count_ne _ _ hk] at hmem
              simp only [flushOut_mk_none, flushState_mk_none, List.nil_append,
                List.mem_cons] at hmem
              rcases hmem with hmem | hmem
              · exact absurd hmem (by simp)
              · exact isolatedPairDeep_pair _ _ _
                  (isolatedPair_cons_deep x y _ (by simp) rest (ihA rest 0 x y hrl hmem))
    · intro script d0 k x y hlen hk hmem
      cases script with
      | nil =>
        rw [writeLinesEvents_nil] at hmem
        simp only [flushOut_mk_some, List.mem_singleton] at hmem
        exact absurd hmem (by simp)
      | cons c0 rest =>
        have hrl : rest.length ≤ n := by
          simp only [List.length_cons] at hlen; omega
        cases c0 with
        | both a b =>
          rw [writeLinesEvents_both] at hmem
          simp only [flushOut_mk_some, flushState_mk_some, List.singleton_append,
            List.mem_cons] at hmem
          rcases hmem with hmem | hmem | hmem
          · exact absurd hmem (by simp)
          · exact absurd hmem (by simp)
          · exact Or.inr (isolatedPair_cons_deep x y _ (by simp) rest
              (ihA rest k x y hrl hmem))
        | left dl =>
          rw [writeLinesEvents_left] at hmem
          simp only [flushOut_mk_some, flushState_mk_some, set_mk,
            List.singleton_append, List.mem_cons] at hmem
          rcases hmem with hmem | hmem
          · exact absurd hmem (by simp)
          · rcases ihB rest dl (k + 1) x y hrl (by omega) hmem with
              ⟨hk1, _, _, _, _⟩ | hdeep
            · omega
            · exact Or.inr (isolatedPairDeep_cons x y _ rest hdeep)
        | right i0 =>
          cases hr : headIsRight rest with
          | true =>
            obtain ⟨j, r2, rfl⟩ : ∃ j r2, rest = DiffResult.right j :: r2 := by
              cases rest with
              | nil => simp [headIsRight] at hr
              | cons c2 r2 =>
                cases c2 with
                | right j => exact ⟨j, r2, rfl⟩
                | both a b => simp [headIsRight] at hr
                | left a => simp [headIsRight] at hr
            rw [writeLinesEvents_right_peek] at hmem
            simp only [flushOut_mk_some, flushState_mk_some, List.singleton_append,
              List.mem_cons] at hmem
            rcases hmem with hmem | hmem | hmem
            · exact absurd hmem (by simp)
            · exact absurd hmem (by simp)
            · exact Or.inr (isolatedPair_cons_deep x y _ (by simp) _
                (ihA _ k x y hrl hmem))
          | false =>
            rw [writeLinesEvents_right i0 rest _ hr] at hmem
            by_cases hk1 : k = 1
            · subst hk1
              rw [take_of_count_one] at hmem
              simp only [List.mem_cons] at hmem
              rcases hmem with hmem | hmem
              · obtain ⟨hx, hy⟩ := OutLine.inlineDiff.inj hmem
                subst hx; subst hy
                exact Or.inl ⟨rfl, rfl, rest, rfl, headIsRight_false_head? rest hr⟩
              · exact Or.inr (isolatedPair_cons_deep x y _ (by simp) rest
                  (ihA rest 1 x y hrl hmem))
            · rw [take_of_count_ne _ _ hk1] at hmem
              simp only [flushOut_mk_some, flushState_mk_some, List.singleton_append,
                List.mem_cons] at hmem
              rcases hmem with hmem | hmem | hmem
              · exact absurd hmem (by simp)
              · exact absurd hmem (by simp)
              · exact Or.inr (isolatedPair_cons_deep x y _ (by simp) rest
                  (ihA rest k x y hrl hmem))

/-- In a full write_lines walk, an inline diff of a pair of lines occurs only
at an isolated single-removed-then-single-inserted adjacency of the script. -/
theorem inline_mem_events (script : List (DiffResult String)) (x y : String)
    (hmem : OutLine.inlineDiff x y ∈ writeLinesEvents script LatentDeletion.start) :
    isolatedPair x y script :=
  (inline_mem_aux script.length).1 script 0 x y (Nat.le_refl _) hmem

theorem noTwoAdjacent_tail {α : Type} (p : α → Bool) (a : α) (l : List α)
    (h : noTwoAdjacent p (a :: l) = true) : noTwoAdjacent p l = true := by
  cases l with
  | nil => rfl
  | cons b r =>
    simp only [noTwoAdjacent, Bool.and_eq_true] at h
    exact h.2

theorem noTwoAdjacent_head {α : Type} (p : α → Bool) (a b : α) (l : List α)
    (h : noTwoAdjacent p (a :: b :: l) = true) (ha : p a = true) : p b = false := by
  simp only [noTwoAdjacent, Bool.and_eq_true] at h
  rcases h with ⟨h1, _⟩
  rw [Bool.not_eq_true', Bool.and_eq_false_iff, ha] at h1
  rcases h1 with h1 | h1
  · cases h1
  · exact h1

/-- Under every-run-is-a-single-line scripts, the legacy walk (unconditional
take, no count, no peek) and the current walk produce the same output units.
The buffer relation: the legacy pending value equals the current one, and a
pending value implies a count of exactly one and no removal at the head. -/
theorem legacy_eq_events :
    ∀ (script : List (DiffResult String)) (d : LatentDeletion),
      noTwoAdjacent isLeftEntry script = true →
      noTwoAdjacent isRightEntry script = true →
      (d.value.isSome = true → (d.count = 1 ∧ headIsLeft script = false)) →
      legacyEvents script d.value = writeLinesEvents script d := by
  intro script
  induction script with
  | nil =>
    intro d _ _ _
    obtain ⟨v, k⟩ := d
    cases v <;> simp [legacyEvents, legacyFlushOut, writeLinesEvents_nil]
  | cons c0 rest ih =>
    intro d hLL hRR hcond
    cases c0 with
    | both a b =>
      obtain ⟨v, k⟩ := d
      have hrec := ih ⟨none, if v.isSome then k else 0⟩ (noTwoAdjacent_tail _ _ _ hLL)
        (noTwoAdjacent_tail _ _ _ hRR) (by simp)
      cases v <;>
        simp_all [legacyEvents, legacyFlushOut, writeLinesEvents_both]
    | left dl =>
      obtain ⟨v, k⟩ := d
      cases v with
      | some w =>
        exact absurd (hcond (by simp)).2 (by simp [headIsLeft])
      | none =>
        have hhead : headIsLeft rest = false := by
          cases rest with
          | nil => rfl
          | cons c2 r2 =>
            cases c2 with
            | left z =>
              have := noTwoAdjacent_head isLeftEntry _ _ r2 hLL (by simp [isLeftEntry])
              simp [isLeftEntry] at this
            | both a b => rfl
            | right a => rfl
        have hrec := ih ⟨some dl, 1⟩ (noTwoAdjacent_tail _ _ _ hLL)
          (noTwoAdjacent_tail _ _ _ hRR) (by simpa using hhead)
        simp_all [legacyEvents, legacyFlushOut, writeLinesEvents_left]
    | right i =>
      cases hr : headIsRight rest with
      | true =>
        obtain ⟨j, r2, rfl⟩ : ∃ j r2, rest = DiffResult.right j :: r2 := by
          cases rest with
          | nil => simp [headIsRight] at hr
          | cons c2 r2 =>
            cases c2 with
            | right j => exact ⟨j, r2, rfl⟩
            | both a b => simp [headIsRight] at hr
            | left a => simp [headIsRight] at hr
        have := noTwoAdjacent_head isRightEntry _ _ r2 hRR (by simp [isRightEntry])
        simp [isRightEntry] at this
      | false =>
        obtain ⟨v, k⟩ := d
        rw [writeLinesEvents_right i rest _ hr]
        cases v with
        | some dl =>
          have hk1 : k = 1 := (hcond (by simp)).1
          subst hk1
          rw [take_of_count_one]
          have hrec := ih ⟨none, 1⟩ (noTwoAdjacent_tail _ _ _ hLL)
            (noTwoAdjacent_tail _ _ _ hRR) (by simp)
          simp_all [legacyEvents]
        | none =>
          have hrec := ih ⟨none, 0⟩ (noTwoAdjacent_tail _ _ _ hLL)
            (noTwoAdjacent_tail _ _ _ hRR) (by simp)
          by_cases hk : k = 1
          · subst hk
            rw [take_of_count_one]
            simp_all [legacyEvents]
          · rw [take_of_count_ne _ _ hk]
            simp_all [legacyEvents]

theorem stringData_ext (s t : String) (h : s.data = t.data) : s = t := by
  cases s; cases t; congr

theorem foldl_append_data (ls : List String) :
    ∀ (acc : String), (List.foldl (· ++ ·) acc ls).data = acc.data ++ (ls.map String.data).flatten := by
  induction ls with
  | nil => intro acc; simp
  | cons s ls ih =>
    intro acc
    simp only [List.foldl_cons, ih (acc ++ s), String.data_append, List.map_cons,
      List.flatten_cons, List.append_assoc]

theorem join_data (ls : List String) :
    (String.join ls).data = (ls.map String.data).flatten := by
  simp [String.join, foldl_append_data]

theorem join_append (l1 l2 : List String) :
    String.join (l1 ++ l2) = String.join l1 ++ String.join l2 := by
  apply stringData_ext
  simp [join_data, String.data_append]

/-- The modelled diff of a sequence against itself is all-equal. -/
theorem diffAux_self {α : Type} [DecidableEq α] :
    ∀ (xs : List α) (f : Nat), 2 * xs.length ≤ f →
      diffAux f xs xs = xs.map (fun x => DiffResult.both x x) := by
  intro xs
  induction xs with
  | nil =>
    intro f _
    cases f <;> simp [diffAux]
  | cons x xs ih =>
    intro f hf
    cases f with
    | zero => simp at hf
    | succ f =>
      simp [diffAux, List.map_cons, ih f (by simp at hf; omega)]

theorem diffSlice_self {α : Type} [DecidableEq α] (xs : List α) :
    diffSlice xs xs = xs.map (fun x => DiffResult.both x x) :=
  diffAux_self xs (xs.length + xs.length) (by omega)

/-- The modelled diff::lines of a text against itself is all-equal, one entry
per physical line. -/
theorem diffLines_self (t : String) :
    diffLines t t = (splitLines t).map (fun v => DiffResult.both v v) := by
  unfold diffLines
  rw [splitLines_eq_strLines t]
  cases he : endsNl t <;>
    simp [he, diffSlice_self]

/-- A script of only equal entries renders as plain context lines. -/
theorem events_all_both (ls : List String) :
    writeLinesEvents (ls.map (fun v => DiffResult.both v v)) ⟨none, 0⟩ =
      ls.map OutLine.ctx := by
  induction ls with
  | nil => rfl
  | cons v ls ih =>
    simp only [List.map_cons, writeLinesEvents_both, flushOut_mk_none,
      flushState_mk_none, List.nil_append, ih]

/-- Rendering a text against itself: each physical line becomes a single
space, the line and a newline, with nothing else in the output. -/
theorem write_lines_self (t : String) :
    write_lines t t = String.join ((splitLines t).map (fun v => " " ++ v ++ "\n")) := by
  unfold write_lines
  rw [diffLines_self, show LatentDeletion.start = (⟨none, 0⟩ : LatentDeletion) from rfl,
    events_all_both, List.map_map]
  congr 1

theorem splitNl_chars :
    ∀ (cs : List Char) (p : List Char), p ∈ splitNl cs → ∀ c, c ∈ p → c ∈ cs := by
  intro cs
  induction cs with
  | nil =>
    intro p hp c hc
    simp [splitNl] at hp
    subst hp
    simp at hc
  | cons c0 rest ih =>
    intro p hp c hc
    by_cases h0 : c0 = '\n'
    · subst h0
      rw [splitNl_cons_nl] at hp
      rcases List.mem_cons.mp hp with hp | hp
      · subst hp; simp at hc
      · exact List.mem_cons_of_mem _ (ih p hp c hc)
    · rw [splitNl_cons_of_ne c0 rest h0] at hp
      cases hs : splitNl rest with
      | nil => exact absurd hs (splitNl_ne_nil rest)
      | cons l ls =>
        rw [hs] at hp
        simp only at hp
        rcases List.mem_cons.mp hp with hp | hp
        · subst hp
          rcases List.mem_cons.mp hc with hc | hc
          · subst hc; exact List.mem_cons_self _ _
          · exact List.mem_cons_of_mem _
              (ih l (by rw [hs]; exact List.mem_cons_self _ _) c hc)
        · exact List.mem_cons_of_mem _
            (ih p (by rw [hs]; exact List.mem_cons_of_mem _ hp) c hc)

theorem splitLines_chars (t : String) (v : String) (hv : v ∈ splitLines t)
    (c : Char) (hc : c ∈ v.data) : c ∈ t.data := by
  unfold splitLines at hv
  cases hsd : t.data with
  | nil => rw [hsd] at hv; simp at hv
  | cons a l =>
    rw [hsd] at hv
    simp only at hv
    obtain ⟨p, hp, hpv⟩ := List.mem_map.mp hv
    rw [← hpv] at hc
    rw [← hsd]
    rw [hsd]
    exact splitNl_chars (a :: l) p hp c hc

/-- The renderer adds no escape characters when rendering a text against
itself: any escape character in the output comes from the text. -/
theorem write_lines_self_no_escape (t : String) (h : Char.ofNat 27 ∉ t.data) :
    Char.ofNat 27 ∉ (write_lines t t).data := by
  rw [write_lines_self, join_data]
  intro hmem
  rw [List.map_map] at hmem
  obtain ⟨v, hv, hcv⟩ : ∃ v ∈ splitLines t, Char.ofNat 27 ∈ (" " ++ v ++ "\n").data := by
    obtain ⟨piece, hpiece, hcp⟩ := List.mem_flatten.mp hmem
    obtain ⟨v, hv, hvp⟩ := List.mem_map.mp hpiece
    exact ⟨v, hv, by rw [← hvp] at hcp; exact hcp⟩
  simp only [String.data_append] at hcv
  rcases List.mem_append.mp hcv with hcv | hcv
  · rcases List.mem_append.mp hcv with hcv | hcv
    · simp at hcv
    · exact h (splitLines_chars t v hv _ hcv)
  · simp at hcv

/-- 1 when a style is open (would need a closing escape), 0 for the default. -/
def styleInd (s : Style) : Nat := if s = Style.neutral then 0 else 1

theorem countOpens_append (a b : List Token) :
    countOpens (a ++ b) = countOpens a + countOpens b := by
  simp [countOpens, List.filter_append]

theorem countCloses_append (a b : List Token) :
    countCloses (a ++ b) = countCloses a + countCloses b := by
  simp [countCloses, List.filter_append]

/-- Each write keeps the invariant: opens emitted so far exceed closes by
exactly one when a style is open. -/
theorem wws_balance (st : Style) (c : Char) (new : Style) :
    countOpens (writeWithStyle st c new).1 + styleInd st =
      countCloses (writeWithStyle st c new).1 + styleInd (writeWithStyle st c new).2 := by
  unfold writeWithStyle
  by_cases h : new = st
  · simp [h, countOpens, countCloses]
  · rw [if_neg h]
    by_cases h1 : st = Style.neutral <;> by_cases h2 : new = Style.neutral <;>
      simp [h1, h2, countOpens, countCloses, styleInd, List.filter_append]

theorem inlineLeftGo_balance (light heavy : Style) :
    ∀ (d : List (DiffResult Char)) (st : Style),
      countOpens (inlineLeftGo light heavy st d).1 + styleInd st =
        countCloses (inlineLeftGo light heavy st d).1 +
          styleInd (inlineLeftGo light heavy st d).2 := by
  intro d
  induction d with
  | nil => intro st; simp [inlineLeftGo, countOpens, countCloses]
  | cons e rest ih =>
    intro st
    cases e with
    | both v w =>
      have h1 := wws_balance st v light
      have h2 := ih (writeWithStyle st v light).2
      simp only [inlineLeftGo, countOpens_append, countCloses_append]
      omega
    | left v =>
      have h1 := wws_balance st v heavy
      have h2 := ih (writeWithStyle st v heavy).2
      simp only [inlineLeftGo, countOpens_append, countCloses_append]
      omega
    | right v =>
      simp only [inlineLeftGo]
      exact ih st

theorem inlineRightGo_balance (light heavy : Style) :
    ∀ (d : List (DiffResult Char)) (st : Style),
      countOpens (inlineRightGo light heavy st d).1 + styleInd st =
        countCloses (inlineRightGo light heavy st d).1 +
          styleInd (inlineRightGo light heavy st d).2 := by
  intro d
  induction d with
  | nil => intro st; simp [inlineRightGo, countOpens, countCloses]
  | cons e rest ih =>
    intro st
    cases e with
    | both v w =>
      have h1 := wws_balance st w light
      have h2 := ih (writeWithStyle st w light).2
      simp only [inlineRightGo, countOpens_append, countCloses_append]
      omega
    | right v =>
      have h1 := wws_balance st v heavy
      have h2 := ih (writeWithStyle st v heavy).2
      simp only [inlineRightGo, countOpens_append, countCloses_append]
      omega
    | left v =>
      simp only [inlineRightGo]
      exact ih st

theorem finish_counts (st : Style) :
    countOpens (finishLine st).1 = 0 ∧ countCloses (finishLine st).1 = styleInd st := by
  by_cases h : st = Style.neutral <;>
    simp [finishLine, countOpens, countCloses, styleInd, h, List.filter_append]

/-- The first inline output line closes exactly as many styles as it opens. -/
theorem inlineLine1_balance (l r : String) :
    countOpens (inlineLineTokens1 l r) = countCloses (inlineLineTokens1 l r) := by
  have h0 := wws_balance Style.neutral SIGN_LEFT Style.redLight
  have h1 := inlineLeftGo_balance Style.redLight Style.redHeavy (diffChars l r)
    (writeWithStyle Style.neutral SIGN_LEFT Style.redLight).2
  have h2 := finish_counts (inlineLeftGo Style.redLight Style.redHeavy
    (writeWithStyle Style.neutral SIGN_LEFT Style.redLight).2 (diffChars l r)).2
  have hz : styleInd Style.neutral = 0 := rfl
  rw [hz] at h0
  simp only [inlineLineTokens1, countOpens_append, countCloses_append]
  omega

/-- The second inline output line closes exactly as many styles as it opens. -/
theorem inlineLine2_balance (l r : String) :
    countOpens (inlineLineTokens2 l r) = countCloses (inlineLineTokens2 l r) := by
  have h0 := wws_balance Style.neutral SIGN_RIGHT Style.greenLight
  have h1 := inlineRightGo_balance Style.greenLight Style.greenHeavy (diffChars l r)
    (writeWithStyle Style.neutral SIGN_RIGHT Style.greenLight).2
  have h2 := finish_counts (inlineRightGo Style.greenLight Style.greenHeavy
    (writeWithStyle Style.neutral SIGN_RIGHT Style.greenLight).2 (diffChars l r)).2
  have hz : styleInd Style.neutral = 0 := rfl
  rw [hz] at h0
  simp only [inlineLineTokens2, countOpens_append, countCloses_append]
  omega

theorem wws_open_mem (st : Style) (c : Char) (new : Style) (s : Style)
    (hm : Token.openStyle s ∈ (writeWithStyle st c new).1) : s = new := by
  unfold writeWithStyle at hm
  by_cases h : new = st
  · rw [if_pos h] at hm; simp at hm
  · rw [if_neg h] at hm
    by_cases h1 : st = Style.neutral <;> by_cases h2 : new = Style.neutral <;>
      simp [h1, h2] at hm <;> exact hm

theorem wws_chr_mem (st : Style) (c : Char) (new : Style) (ch : Char)
    (hm : Token.chr ch ∈ (writeWithStyle st c new).1) : ch = c := by
  unfold writeWithStyle at hm
  by_cases h : new = st
  · rw [if_pos h] at hm; simpa using hm
  · rw [if_neg h] at hm
    by_cases h1 : st = Style.neutral <;> by_cases h2 : new = Style.neutral <;>
      simp [h1, h2] at hm <;> exact hm

theorem wws_no_newline (st : Style) (c : Char) (new : Style) :
    Token.newline ∉ (writeWithStyle st c new).1 := by
  unfold writeWithStyle
  by_cases h : new = st
  · rw [if_pos h]; simp
  · rw [if_neg h]
    by_cases h1 : st = Style.neutral <;> by_cases h2 : new = Style.neutral <;>
      simp [h1, h2]

theorem inlineLeftGo_open_mem (light heavy : Style) :
    ∀ (d : List (DiffResult Char)) (st : Style) (s : Style),
      Token.openStyle s ∈ (inlineLeftGo light heavy st d).1 → s = light ∨ s = heavy := by
  intro d
  induction d with
  | nil => intro st s hm; simp [inlineLeftGo] at hm
  | cons e rest ih =>
    intro st s hm
    cases e with
    | both v w =>
      simp only [inlineLeftGo, List.mem_append] at hm
      rcases hm with hm | hm
      · exact Or.inl (wws_open_mem _ _ _ _ hm)
      · exact ih _ s hm
    | left v =>
      simp only [inlineLeftGo, List.mem_append] at hm
      rcases hm with hm | hm
      · exact Or.inr (wws_open_mem _ _ _ _ hm)
      · exact ih _ s hm
    | right v =>
      simp only [inlineLeftGo] at hm
      exact ih _ s hm

theorem inlineRightGo_open_mem (light heavy : Style) :
    ∀ (d : List (DiffResult Char)) (st : Style) (s : Style),
      Token.openStyle s ∈ (inlineRightGo light heavy st d).1 → s = light ∨ s = heavy := by
  intro d
  induction d with
  | nil => intro st s hm; simp [inlineRightGo] at hm
  | cons e rest ih =>
    intro st s hm
    cases e with
    | both v w =>
      simp only [inlineRightGo, List.mem_append] at hm
      rcases hm with hm | hm
      · exact Or.inl (wws_open_mem _ _ _ _ hm)
      · exact ih _ s hm
    | right v =>
      simp only [inlineRightGo, List.mem_append] at hm
      rcases hm with hm | hm
      · exact Or.inr (wws_open_mem _ _ _ _ hm)
      · exact ih _ s hm
    | left v =>
      simp only [inlineRightGo] at hm
      exact ih _ s hm

theorem inlineLeftGo_chr_mem (light heavy : Style) :
    ∀ (d : List (DiffResult Char)) (st : Style) (ch : Char),
      Token.chr ch ∈ (inlineLeftGo light heavy st d).1 → ch ∈ scriptLefts d := by
  intro d
  induction d with
  | nil => intro st ch hm; simp [inlineLeftGo] at hm
  | cons e rest ih =>
    intro st ch hm
    cases e with
    | both v w =>
      simp only [inlineLeftGo, List.mem_append] at hm
      rcases hm with hm | hm
      · rw [wws_chr_mem _ _ _ _ hm]; simp
      · exact List.mem_cons_of_mem _ (ih _ ch hm)
    | left v =>
      simp only [inlineLeftGo, List.mem_append] at hm
      rcases hm with hm | hm
      · rw [wws_chr_mem _ _ _ _ hm]; simp
      · exact List.mem_cons_of_mem _ (ih _ ch hm)
    | right v =>
      simp only [inlineLeftGo, scriptLefts_right] at hm
      exact ih _ ch hm

theorem inlineRightGo_chr_mem (light heavy : Style) :
    ∀ (d : List (DiffResult Char)) (st : Style) (ch : Char),
      Token.chr ch ∈ (inlineRightGo light heavy st d).1 → ch ∈ scriptRights d := by
  intro d
  induction d with
  | nil => intro st ch hm; simp [inlineRightGo] at hm
  | cons e rest ih =>
    intro st ch hm
    cases e with
    | both v w =>
      simp only [inlineRightGo, List.mem_append] at hm
      rcases hm with hm | hm
      · rw [wws_chr_mem _ _ _ _ hm]; simp
      · exact List.mem_cons_of_mem _ (ih _ ch hm)
    | right v =>
      simp only [inlineRightGo, List.mem_append] at hm
      rcases hm with hm | hm
      · rw [wws_chr_mem _ _ _ _ hm]; simp
      · exact List.mem_cons_of_mem _ (ih _ ch hm)
    | left v =>
      simp only [inlineRightGo, scriptRights_left] at hm
      exact ih _ ch hm

theorem inlineLeftGo_no_newline (light heavy : Style) :
    ∀ (d : List (DiffResult Char)) (st : Style),
      Token.newline ∉ (inlineLeftGo light heavy st d).1 := by
  intro d
  induction d with
  | nil => intro st; simp [inlineLeftGo]
  | cons e rest ih =>
    intro st
    cases e with
    | both v w =>
      simp only [inlineLeftGo, List.mem_append]
      rintro (hm | hm)
      · exact wws_no_newline _ _ _ hm
      · exact ih _ hm
    | left v =>
      simp only [inlineLeftGo, List.mem_append]
      rintro (hm | hm)
      · exact wws_no_newline _ _ _ hm
      · exact ih _ hm
    | right v =>
      simp only [inlineLeftGo]
      exact ih st

theorem inlineRightGo_no_newline (light heavy : Style) :
    ∀ (d : List (DiffResult Char)) (st : Style),
      Token.newline ∉ (inlineRightGo light heavy st d).1 := by
  intro d
  induction d with
  | nil => intro st; simp [inlineRightGo]
  | cons e rest ih =>
    intro st
    cases e with
    | both v w =>
      simp only [inlineRightGo, List.mem_append]
      rintro (hm | hm)
      · exact wws_no_newline _ _ _ hm
      · exact ih _ hm
    | right v =>
      simp only [inlineRightGo, List.mem_append]
      rintro (hm | hm)
      · exact wws_no_newline _ _ _ hm
      · exact ih _ hm
    | left v =>
      simp only [inlineRightGo]
      exact ih st

/-- The first inline output line is everything before one final newline
token, which the finish call emits after force-closing any open style. -/
theorem inlineLine1_decomp (l r : String) :
    ∃ ts, inlineLineTokens1 l r = ts ++ [Token.newline] ∧
      Token.newline ∉ ts ∧
      (∀ ch, Token.chr ch ∈ ts → ch = SIGN_LEFT ∨ ch ∈ l.data) ∧
      (∀ s, Token.openStyle s ∈ ts → s = Style.redLight ∨ s = Style.redHeavy) := by
  refine ⟨(writeWithStyle Style.neutral SIGN_LEFT Style.redLight).1 ++
    ((inlineLeftGo Style.redLight Style.redHeavy
        (writeWithStyle Style.neutral SIGN_LEFT Style.redLight).2 (diffChars l r)).1 ++
      (if (inlineLeftGo Style.redLight Style.redHeavy
          (writeWithStyle Style.neutral SIGN_LEFT Style.redLight).2
          (diffChars l r)).2 = Style.neutral then [] else [Token.closeStyle])), ?_, ?_, ?_, ?_⟩
  · simp [inlineLineTokens1, finishLine]
  · simp only [List.mem_append]
    rintro (hm | hm | hm)
    · exact wws_no_newline _ _ _ hm
    · exact inlineLeftGo_no_newline _ _ _ _ hm
    · revert hm
      by_cases h : (inlineLeftGo Style.redLight Style.redHeavy
          (writeWithStyle Style.neutral SIGN_LEFT Style.redLight).2
          (diffChars l r)).2 = Style.neutral <;> simp [h]
  · intro ch
    simp only [List.mem_append]
    rintro (hm | hm | hm)
    · exact Or.inl (wws_chr_mem _ _ _ _ hm)
    · have := inlineLeftGo_chr_mem Style.redLight Style.redHeavy (diffChars l r) _ ch hm
      rw [diffChars, scriptLefts_diffSlice] at this
      exact Or.inr this
    · exfalso
      revert hm
      by_cases h : (inlineLeftGo Style.redLight Style.redHeavy
          (writeWithStyle Style.neutral SIGN_LEFT Style.redLight).2
          (diffChars l r)).2 = Style.neutral <;> simp [h]
  · intro s
    simp only [List.mem_append]
    rintro (hm | hm | hm)
    · exact Or.inl (wws_open_mem _ _ _ _ hm)
    · exact inlineLeftGo_open_mem _ _ _ _ _ hm
    · exfalso
      revert hm
      by_cases h : (inlineLeftGo Style.redLight Style.redHeavy
          (writeWithStyle Style.neutral SIGN_LEFT Style.redLight).2
          (diffChars l r)).2 = Style.neutral <;> simp [h]

/-- The second inline output line, symmetrically. -/
theorem inlineLine2_decomp (l r : String) :
    ∃ ts, inlineLineTokens2 l r = ts ++ [Token.newline] ∧
      Token.newline ∉ ts ∧
      (∀ ch, Token.chr ch ∈ ts → ch = SIGN_RIGHT ∨ ch ∈ r.data) ∧
      (∀ s, Token.openStyle s ∈ ts → s = Style.greenLight ∨ s = Style.greenHeavy) := by
  refine ⟨(writeWithStyle Style.neutral SIGN_RIGHT Style.greenLight).1 ++
    ((inlineRightGo Style.greenLight Style.greenHeavy
        (writeWithStyle Style.neutral SIGN_RIGHT Style.greenLight).2 (diffChars l r)).1 ++
      (if (inlineRightGo Style.greenLight Style.greenHeavy
          (writeWithStyle Style.neutral SIGN_RIGHT Style.greenLight).2
          (diffChars l r)).2 = Style.neutral then [] else [Token.closeStyle])), ?_, ?_, ?_, ?_⟩
  · simp [inlineLineTokens2, finishLine]
  · simp only [List.mem_append]
    rintro (hm | hm | hm)
    · exact wws_no_newline _ _ _ hm
    · exact inlineRightGo_no_newline _ _ _ _ hm
    · revert hm
      by_cases h : (inlineRightGo Style.greenLight Style.greenHeavy
          (writeWithStyle Style.neutral SIGN_RIGHT Style.greenLight).2
          (diffChars l r)).2 = Style.neutral <;> simp [h]
  · intro ch
    simp only [List.mem_append]
    rintro (hm | hm | hm)
    · exact Or.inl (wws_chr_mem _ _ _ _ hm)
    · have := inlineRightGo_chr_mem Style.greenLight Style.greenHeavy (diffChars l r) _ ch hm
      rw [diffChars, scriptRights_diffSlice] at this
      exact Or.inr this
    · exfalso
      revert hm
      by_cases h : (inlineRightGo Style.greenLight Style.greenHeavy
          (writeWithStyle Style.neutral SIGN_RIGHT Style.greenLight).2
          (diffChars l r)).2 = Style.neutral <;> simp [h]
  · intro s
    simp only [List.mem_append]
    rintro (hm | hm | hm)
    · exact Or.inl (wws_open_mem _ _ _ _ hm)
    · exact inlineRightGo_open_mem _ _ _ _ _ hm
    · exfalso
      revert hm
      by_cases h : (inlineRightGo Style.greenLight Style.greenHeavy
          (writeWithStyle Style.neutral SIGN_RIGHT Style.greenLight).2
          (diffChars l r)).2 = Style.neutral <;> simp [h]

theorem renderTokens_append (a b : List Token) :
    renderTokens (a ++ b) = renderTokens a ++ renderTokens b := by
  simp [renderTokens, join_append]

theorem renderTokens_no_newline (ts : List Token)
    (h : Token.newline ∉ ts)
    (hch : ∀ ch, Token.chr ch ∈ ts → ch ≠ '\n') :
    '\n' ∉ (renderTokens ts).data := by
  rw [renderTokens, join_data]
  intro hmem
  obtain ⟨piece, hpiece, hcp⟩ := List.mem_flatten.mp hmem
  rw [List.map_map] at hpiece
  obtain ⟨t, ht, htp⟩ := List.mem_map.mp hpiece
  rw [← htp] at hcp
  cases t with
  | openStyle s =>
    revert hcp
    cases s <;> decide
  | closeStyle =>
    revert hcp
    decide
  | chr ch =>
    simp [renderToken, String.singleton] at hcp
    exact hch ch ht hcp.symm
  | newline => exact h ht

/-- Rendering the first inline line: a newline-free body followed by a single
newline, provided the input lines hold no newline characters. -/
theorem inlineLine1_shape (l r : String) (hl : '\n' ∉ l.data) :
    ∃ a, (renderTokens (inlineLineTokens1 l r)).data = a ++ ['\n'] ∧ '\n' ∉ a := by
  obtain ⟨ts, hts, hnl, hch, _⟩ := inlineLine1_decomp l r
  refine ⟨(renderTokens ts).data, ?_, ?_⟩
  · rw [hts, renderTokens_append, String.data_append]
    rfl
  · exact renderTokens_no_newline ts hnl (by
      intro ch hm
      rcases hch ch hm with h1 | h1
      · rw [h1]; decide
      · intro h0; rw [h0] at h1; exact hl h1)

theorem inlineLine2_shape (l r : String) (hr : '\n' ∉ r.data) :
    ∃ b, (renderTokens (inlineLineTokens2 l r)).data = b ++ ['\n'] ∧ '\n' ∉ b := by
  obtain ⟨ts, hts, hnl, hch, _⟩ := inlineLine2_decomp l r
  refine ⟨(renderTokens ts).data, ?_, ?_⟩
  · rw [hts, renderTokens_append, String.data_append]
    rfl
  · exact renderTokens_no_newline ts hnl (by
      intro ch hm
      rcases hch ch hm with h1 | h1
      · rw [h1]; decide
      · intro h0; rw [h0] at h1; exact hr h1)

/-- Every style the inline renderer opens is a real (non-default) style, so
every opening escape is non-empty. -/
theorem inlineDiffTokens_open_ne (l r : String) (s : Style)
    (hm : Token.openStyle s ∈ inlineDiffTokens l r) : s ≠ Style.neutral := by
  obtain ⟨ts1, hts1, _, _, ho1⟩ := inlineLine1_decomp l r
  obtain ⟨ts2, hts2, _, _, ho2⟩ := inlineLine2_decomp l r
  rw [inlineDiffTokens, hts1, hts2] at hm
  simp only [List.mem_append, List.mem_singleton] at hm
  rcases hm with (hm | hm) | (hm | hm)
  · rcases ho1 s hm with h | h <;> { rw [h]; decide }
  · cases hm
  · rcases ho2 s hm with h | h <;> { rw [h]; decide }
  · cases hm

/-- A sink that never fails lets every write sequence complete. -/
theorem writeChunksE_ok {σ : Type} (w : σ → String → Except Unit σ)
    (hw : ∀ s t, ∃ s1, w s t = Except.ok s1) :
    ∀ (cs : List String) (s : σ), ∃ s1, writeChunksE w s cs = Except.ok s1 := by
  intro cs
  induction cs with
  | nil => intro s; exact ⟨s, rfl⟩
  | cons c cs ih =>
    intro s
    obtain ⟨s1, hs1⟩ := hw s c
    obtain ⟨s2, hs2⟩ := ih s1
    exact ⟨s2, by simp [writeChunksE, hs1, hs2]⟩

/-- A sink that always fails aborts at the first write. -/
theorem writeChunksE_fail (cs : List String) (h : cs ≠ []) :
    writeChunksE failSink () cs = Except.error () := by
  cases cs with
  | nil => exact absurd rfl h
  | cons c cs => rfl

/-- Writing into an in-memory string sink appends all chunks in order. -/
theorem writeChunksE_string :
    ∀ (cs : List String) (s : String),
      writeChunksE stringSink s cs = Except.ok (s ++ String.join cs) := by
  intro cs
  induction cs with
  | nil =>
    intro s
    simp [writeChunksE, String.join]
  | cons c cs ih =>
    intro s
    rw [show writeChunksE stringSink s (c :: cs) =
      writeChunksE stringSink (s ++ c) cs from rfl, ih (s ++ c)]
    rw [show String.join (c :: cs) = c ++ String.join cs from by
      apply stringData_ext
      simp [join_data]]
    rw [String.append_assoc]

theorem outLineWrites_ne_nil (e : OutLine) : outLineWrites e ≠ [] := by
  cases e with
  | ctx v => simp [outLineWrites]
  | removed v => simp [outLineWrites]
  | added v => simp [outLineWrites]
  | inlineDiff del ins =>
    obtain ⟨ts, hts, _, _, _⟩ := inlineLine1_decomp del ins
    simp only [outLineWrites, inlineDiffTokens, hts]
    simp

/-- The walk writes something whenever the script is non-empty or a deletion
is pending. -/
theorem events_ne_nil :
    ∀ (script : List (DiffResult String)) (d : LatentDeletion),
      (script ≠ [] ∨ d.value ≠ none) → writeLinesEvents script d ≠ []
  | [], d, h => by
    rcases h with h | h
    · exact absurd rfl h
    · obtain ⟨v, k⟩ := d
      cases v with
      | none => simp at h
      | some x => simp [writeLinesEvents_nil]
  | DiffResult.both a b :: rest, d, _ => by
    rw [writeLinesEvents_both]
    simp
  | DiffResult.left dl :: rest, d, _ => by
    rw [writeLinesEvents_left]
    intro h0
    rcases List.append_eq_nil.mp h0 with ⟨_, h2⟩
    refine events_ne_nil rest (d.flushState.set dl) (Or.inr ?_) h2
    obtain ⟨v, k⟩ := d
    cases v <;> simp
  | DiffResult.right i :: rest, d, _ => by
    cases hr : headIsRight rest with
    | true =>
      obtain ⟨j, r2, rfl⟩ : ∃ j r2, rest = DiffResult.right j :: r2 := by
        cases rest with
        | nil => simp [headIsRight] at hr
        | cons c2 r2 =>
          cases c2 with
          | right j => exact ⟨j, r2, rfl⟩
          | both a b => simp [headIsRight] at hr
          | left a => simp [headIsRight] at hr
      rw [writeLinesEvents_right_peek]
      simp
    | false =>
      rw [writeLinesEvents_right i rest d hr]
      rcases htake : d.take with ⟨o, d1⟩
      cases o <;> simp

theorem diffSlice_eq_nil {α : Type} [DecidableEq α] (xs ys : List α)
    (h : diffSlice xs ys = []) : xs = [] ∧ ys = [] := by
  cases xs with
  | nil =>
    cases ys with
    | nil => exact ⟨rfl, rfl⟩
    | cons y ys => simp [diffSlice, diffAux] at h
  | cons x xs =>
    cases ys with
    | nil => simp [diffSlice, diffAux] at h
    | cons y ys =>
      exfalso
      rw [diffSlice, show (x :: xs).length + (y :: ys).length =
        xs.length + (y :: ys).length + 1 from by simp [List.length_cons]; omega] at h
      simp only [diffAux] at h
      split at h
      · simp at h
      · split at h <;> simp at h

theorem splitLines_eq_nil (s : String) (h : splitLines s = []) : s = "" := by
  unfold splitLines at h
  cases hsd : s.data with
  | nil => exact stringData_ext s "" hsd
  | cons a l =>
    rw [hsd] at h
    simp only at h
    exact absurd (List.map_eq_nil_iff.mp h) (splitNl_ne_nil _)

/-- An empty line-level edit script arises only from two empty texts. -/
theorem diffLines_eq_nil (l r : String) (h : diffLines l r = []) : l = "" ∧ r = "" := by
  unfold diffLines at h
  cases hl : endsNl l <;> cases hr : endsNl r <;> rw [hl, hr] at h <;>
    simp only [List.append_eq_nil] at h
  · obtain ⟨h1, h2⟩ := diffSlice_eq_nil _ _ h
    constructor
    · apply splitLines_eq_nil
      rw [splitLines_eq_strLines, hl, h1]
      simp
    · apply splitLines_eq_nil
      rw [splitLines_eq_strLines, hr, h2]
      simp
  · simp at h
  · simp at h
  · simp at h

theorem join_flatten_map (es : List OutLine) :
    String.join ((es.map outLineWrites).flatten) = String.join (es.map renderOutLine) := by
  induction es with
  | nil => rfl
  | cons e es ih =>
    simp only [List.map_cons, List.flatten_cons]
    rw [join_append, ih]
    apply stringData_ext
    simp [join_data, renderOutLine]

/-- Against the never-failing string sink, the sink-threaded renderer
produces exactly the pure rendering. -/
theorem write_linesE_string (l r : String) :
    write_linesE stringSink "" l r = Except.ok (write_lines l r) := by
  rw [write_linesE, writeChunksE_string, join_flatten_map]
  rw [show ("" ++ String.join ((writeLinesEvents (diffLines l r)
      LatentDeletion.start).map renderOutLine)) = write_lines l r from
    String.empty_append _]

theorem write_inline_diffE_string (l r : String) :
    write_inline_diffE stringSink "" l r = Except.ok (write_inline_diff l r) := by
  rw [write_inline_diffE, writeChunksE_string]
  rw [show ("" ++ String.join ((inlineDiffTokens l r).map renderToken)) =
    write_inline_diff l r from String.empty_append _]

/-- The first inline write is the opening escape of the left marker, so the
inline renderer always performs at least one write. -/
theorem inlineDiffTokens_ne_nil (l r : String) : inlineDiffTokens l r ≠ [] := by
  obtain ⟨ts, hts, _, _, _⟩ := inlineLine1_decomp l r
  simp only [inlineDiffTokens, hts]
  simp

theorem flatten_writes_ne_nil (l r : String) (h : l ≠ r) :
    ((writeLinesEvents (diffLines l r) LatentDeletion.start).map outLineWrites).flatten ≠ [] := by
  have hscript : diffLines l r ≠ [] := by
    intro h0
    obtain ⟨h1, h2⟩ := diffLines_eq_nil l r h0
    rw [h1, h2] at h
    exact h rfl
  have hev := events_ne_nil (diffLines l r) LatentDeletion.start (Or.inl hscript)
  intro h0
  rcases hevc : writeLinesEvents (diffLines l r) LatentDeletion.start with _ | ⟨e, es⟩
  · exact hev hevc
  · rw [hevc] at h0
    simp only [List.map_cons, List.flatten_cons, List.append_eq_nil] at h0
    exact outLineWrites_ne_nil e h0.1

theorem renderOutLine_endsNl : ∀ (e : OutLine), (renderOutLine e).data.getLast? = some '\n' := by
  intro e
  cases e with
  | ctx v =>
    rw [renderOutLine_ctx]
    simp only [String.data_append]
    rw [List.getLast?_append, List.getLast?_append]
    rfl
  | removed v =>
    rw [renderOutLine_removed]
    simp only [String.data_append]
    rw [List.getLast?_append]
    rfl
  | added v =>
    rw [renderOutLine_added]
    simp only [String.data_append]
    rw [List.getLast?_append]
    rfl
  | inlineDiff del ins =>
    obtain ⟨ts, hts, _, _, _⟩ := inlineLine2_decomp del ins
    rw [renderOutLine_inline,
      show write_inline_diff del ins =
        renderTokens (inlineLineTokens1 del ins) ++ renderTokens (inlineLineTokens2 del ins)
        from renderTokens_append _ _,
      hts, renderTokens_append]
    simp [String.data_append, renderTokens, renderToken, String.join]

/-- C1: whenever the line-level edit script has a removed run of more than
one line or an inserted run of more than one line next to it, write_lines
renders every line of those runs as a plain whole-line removal or addition
with no character-level highlighting; an inline diff arises only at a strict
single-removed-line-then-single-inserted-line adjacency; on the
two-removed-two-inserted example the output is four plain lines in original
order. -/
theorem c1_no_inline_for_multiline_runs :
    (∀ (ds ins : List String) (c : Nat) (rest : List (DiffResult String)),
      ds ≠ [] → ins ≠ [] → (1 < ds.length ∨ 1 < ins.length) → headIsRight rest = false →
      ∃ c', writeLinesEvents
          (ds.map DiffResult.left ++ (ins.map DiffResult.right ++ rest)) ⟨none, c⟩ =
        ds.map OutLine.removed ++
          (ins.map OutLine.added ++ writeLinesEvents rest ⟨none, c'⟩)) ∧
    (∀ (script : List (DiffResult String)) (x y : String),
      OutLine.inlineDiff x y ∈ writeLinesEvents script LatentDeletion.start →
      isolatedPair x y script) ∧
    write_lines "Proboscis\nCabbage" "Probed\nCaravaggio" =
      "\x1b[31m<Proboscis\x1b[0m\n\x1b[31m<Cabbage\x1b[0m\n" ++
      "\x1b[32m>Probed\x1b[0m\n\x1b[32m>Caravaggio\x1b[0m\n" :=
  ⟨events_hunk_plain, inline_mem_events, by decide⟩

theorem c1_no_inline_for_multiline_runs_witness :
    writeLinesEvents [DiffResult.left "a", DiffResult.left "b", DiffResult.right "c"]
        LatentDeletion.start = [OutLine.removed "a", OutLine.removed "b", OutLine.added "c"] ∧
    isolatedPair "a" "b" [DiffResult.left "a", DiffResult.right "b"] := by
  constructor
  · obtain ⟨c', hc⟩ := c1_no_inline_for_multiline_runs.1 ["a", "b"] ["c"] 0 []
      (by decide) (by decide) (by decide) rfl
    simp only [List.map_cons, List.map_nil, List.cons_append, List.nil_append,
      writeLinesEvents_nil, flushOut_mk_none, List.append_nil] at hc
    exact hc
  · exact c1_no_inline_for_multiline_runs.2.1 [DiffResult.left "a", DiffResult.right "b"]
      "a" "b" (by decide)

/-- C2: for every pair of input texts, every physical line of the left input
appears exactly once on the removed side of the output, in order, and every
physical line of the right input exactly once on the inserted side;
write_lines is the concatenation of the rendered output units, each of which
is newline-terminated and carries the context, removed or added marker. -/
theorem c2_every_line_appears_once : ∀ (l r : String),
    leftLinesOf (writeLinesEvents (diffLines l r) LatentDeletion.start) = splitLines l ∧
    rightLinesOf (writeLinesEvents (diffLines l r) LatentDeletion.start) = splitLines r ∧
    write_lines l r =
      String.join ((writeLinesEvents (diffLines l r) LatentDeletion.start).map renderOutLine) ∧
    (∀ e ∈ writeLinesEvents (diffLines l r) LatentDeletion.start,
      (renderOutLine e).data.getLast? = some '\n') ∧
    (∀ v, renderOutLine (OutLine.ctx v) = " " ++ v ++ "\n") ∧
    (∀ v, renderOutLine (OutLine.removed v) = "\x1b[31m" ++ "<" ++ v ++ "\x1b[0m" ++ "\n") ∧
    (∀ v, renderOutLine (OutLine.added v) = "\x1b[32m" ++ ">" ++ v ++ "\x1b[0m" ++ "\n") := by
  intro l r
  refine ⟨?_, ?_, rfl, fun e _ => renderOutLine_endsNl e,
    renderOutLine_ctx, renderOutLine_removed, renderOutLine_added⟩
  · rw [leftLinesOf_events, scriptLefts_diffLines]
    rfl
  · rw [rightLinesOf_events (diffLines l r) LatentDeletion.start (diffLines_both_eq l r),
      scriptRights_diffLines]

theorem c2_every_line_appears_once_witness :
    leftLinesOf (writeLinesEvents (diffLines "a" "b") LatentDeletion.start) = splitLines "a" ∧
    (renderOutLine (OutLine.inlineDiff "a" "b")).data.getLast? = some '\n' := by
  have h := c2_every_line_appears_once "a" "b"
  exact ⟨h.1, h.2.2.2.1 (OutLine.inlineDiff "a" "b") (by decide)⟩

/-- C3: an empty left input against the single line content produces exactly
one added output line in added styling; in general an empty string on either
side contributes no output lines for that side. -/
theorem c3_empty_side_no_lines :
    write_lines "" "content" = "\x1b[32m>content\x1b[0m\n" ∧
    (∀ r : String,
      leftLinesOf (writeLinesEvents (diffLines "" r) LatentDeletion.start) = []) ∧
    (∀ l : String,
      rightLinesOf (writeLinesEvents (diffLines l "") LatentDeletion.start) = []) := by
  refine ⟨by decide, ?_, ?_⟩
  · intro r
    rw [leftLinesOf_events, scriptLefts_diffLines]
    rfl
  · intro l
    rw [rightLinesOf_events (diffLines l "") LatentDeletion.start (diffLines_both_eq l ""),
      scriptRights_diffLines]
    rfl

/-- C4: an isolated removal-then-insertion is inline-diffed and a removal
immediately after it is still flushed exactly once, a trailing removal being
flushed plainly after the loop; on left "fan" plus newline and right "mug"
the output is the inline diff of fan and mug followed by one plain removed
empty line. -/
theorem c4_trailing_removal_after_inline :
    (∀ x y z : String,
      writeLinesEvents [DiffResult.left x, DiffResult.right y, DiffResult.left z]
          LatentDeletion.start = [OutLine.inlineDiff x y, OutLine.removed z]) ∧
    diffLines "fan\n" "mug" =
      [DiffResult.left "fan", DiffResult.right "mug", DiffResult.left ""] ∧
    write_lines "fan\n" "mug" =
      "\x1b[31m<\x1b[0m\x1b[1;48;5;52;31mfan\x1b[0m\n" ++
      "\x1b[32m>\x1b[0m\x1b[1;48;5;22;32mmug\x1b[0m\n" ++
      "\x1b[31m<\x1b[0m\n" := by
  refine ⟨?_, by decide, by decide⟩
  intro x y z
  rw [show (LatentDeletion.start : LatentDeletion) = ⟨none, 0⟩ from rfl,
    events_inline_pair x y 0 [DiffResult.left z] rfl]
  simp [writeLinesEvents_left, writeLinesEvents_nil]

/-- C5: the deferred-deletion buffer holds at most one pending removed line
at every state the walk passes through, and any pending removed line is
flushed as plain removal output before an Equal line is written and before
the walk ends (the final buffer state is empty). -/
theorem c5_deferred_deletion_invariant :
    (∀ (script : List (DiffResult String)) (st : LatentDeletion),
      st ∈ writeLinesStates script LatentDeletion.start → pendingCount st ≤ 1) ∧
    (∀ (v w : String) (rest : List (DiffResult String)) (d : LatentDeletion),
      writeLinesEvents (DiffResult.both v w :: rest) d =
        d.flushOut ++ OutLine.ctx v :: writeLinesEvents rest d.flushState ∧
      d.flushState.value = none) ∧
    (∀ (script : List (DiffResult String)) (d : LatentDeletion),
      (writeLinesFinal script d).value = none) ∧
    (∀ d : LatentDeletion, writeLinesEvents [] d = d.flushOut) := by
  refine ⟨fun _ st _ => pendingCount_le_one st, ?_, writeLinesFinal_value,
    writeLinesEvents_nil⟩
  intro v w rest d
  refine ⟨writeLinesEvents_both v w rest d, ?_⟩
  obtain ⟨v0, k⟩ := d
  cases v0 <;> rfl

theorem c5_deferred_deletion_invariant_witness :
    pendingCount ⟨some "a", 1⟩ ≤ 1 ∧
    (writeLinesFinal [DiffResult.left "a"] LatentDeletion.start).value = none :=
  ⟨c5_deferred_deletion_invariant.1 [DiffResult.left "a"] ⟨some "a", 1⟩ (by decide),
    c5_deferred_deletion_invariant.2.2.1 [DiffResult.left "a"] LatentDeletion.start⟩

/-- C6: for single-line inputs the inline renderer's output opens exactly as
many styles as it closes, in total and within each of its exactly two
newline-terminated lines, every opened style being a real one; no line ends
with a style left open, the closing escape preceding each newline. -/
theorem c6_inline_style_balance : ∀ (l r : String),
    '\n' ∉ l.data → '\n' ∉ r.data →
    countOpens (inlineDiffTokens l r) = countCloses (inlineDiffTokens l r) ∧
    countOpens (inlineLineTokens1 l r) = countCloses (inlineLineTokens1 l r) ∧
    countOpens (inlineLineTokens2 l r) = countCloses (inlineLineTokens2 l r) ∧
    (∃ a b, (write_inline_diff l r).data = a ++ '\n' :: (b ++ ['\n']) ∧
      '\n' ∉ a ∧ '\n' ∉ b) ∧
    (∀ s, Token.openStyle s ∈ inlineDiffTokens l r → s ≠ Style.neutral) := by
  intro l r hl hr
  refine ⟨?_, inlineLine1_balance l r, inlineLine2_balance l r, ?_,
    inlineDiffTokens_open_ne l r⟩
  · rw [inlineDiffTokens, countOpens_append, countCloses_append,
      inlineLine1_balance, inlineLine2_balance]
  · obtain ⟨a, ha, hna⟩ := inlineLine1_shape l r hl
    obtain ⟨b, hb, hnb⟩ := inlineLine2_shape l r hr
    refine ⟨a, b, ?_, hna, hnb⟩
    rw [write_inline_diff, inlineDiffTokens, renderTokens_append, String.data_append,
      ha, hb]
    simp

theorem c6_inline_style_balance_witness :
    countOpens (inlineDiffTokens "fan" "mug") = countCloses (inlineDiffTokens "fan" "mug") :=
  (c6_inline_style_balance "fan" "mug" (by decide) (by decide)).1

/-- C7: at every Equal entry of the script, write_lines first flushes any
pending deferred deletion as a plain removed line and then emits the
contained line prefixed by the neutral unchanged marker, a single leading
space. -/
theorem c7_equal_run_flush_then_context :
    ∀ (v w : String) (rest : List (DiffResult String)) (d : LatentDeletion),
      writeLinesEvents (DiffResult.both v w :: rest) d =
        d.flushOut ++ OutLine.ctx v :: writeLinesEvents rest d.flushState ∧
      d.flushOut = (match d.value with
        | some x => [OutLine.removed x]
        | none => []) ∧
      renderOutLine (OutLine.ctx v) = " " ++ v ++ "\n" ∧
      (∀ x, renderOutLine (OutLine.removed x) =
        "\x1b[31m" ++ "<" ++ x ++ "\x1b[0m" ++ "\n") := by
  intro v w rest d
  exact ⟨writeLinesEvents_both v w rest d, rfl, renderOutLine_ctx v,
    renderOutLine_removed⟩

/-- C8: the sink-threaded renderers fail exactly when the caller-supplied
sink fails a write: with any never-failing sink they succeed, against the
in-memory string sink they produce exactly the pure rendering, and with an
always-failing sink they abort with the sink's error whenever at least one
write is attempted, which for write_lines is whenever the inputs differ and
for write_inline_diff is always. -/
theorem c8_error_iff_sink_error :
    (∀ (σ : Type) (w : σ → String → Except Unit σ),
      (∀ s t, ∃ s1, w s t = Except.ok s1) →
      ∀ (l r : String) (s : σ),
        (∃ s1, write_linesE w s l r = Except.ok s1) ∧
        (∃ s1, write_inline_diffE w s l r = Except.ok s1)) ∧
    (∀ l r : String, write_linesE stringSink "" l r = Except.ok (write_lines l r)) ∧
    (∀ l r : String, write_inline_diffE stringSink "" l r =
      Except.ok (write_inline_diff l r)) ∧
    (∀ l r : String, l ≠ r → write_linesE failSink () l r = Except.error ()) ∧
    (∀ l r : String, write_inline_diffE failSink () l r = Except.error ()) := by
  refine ⟨?_, write_linesE_string, write_inline_diffE_string, ?_, ?_⟩
  · intro σ w hw l r s
    exact ⟨writeChunksE_ok w hw _ s, writeChunksE_ok w hw _ s⟩
  · intro l r h
    exact writeChunksE_fail _ (flatten_writes_ne_nil l r h)
  · intro l r
    refine writeChunksE_fail _ ?_
    intro h0
    exact inlineDiffTokens_ne_nil l r (List.map_eq_nil_iff.mp h0)

theorem c8_error_iff_sink_error_witness :
    write_linesE stringSink "" "a" "b" = Except.ok (write_lines "a" "b") ∧
    write_linesE failSink () "a" "b" = Except.error () ∧
    write_inline_diffE failSink () "" "" = Except.error () :=
  ⟨c8_error_iff_sink_error.2.1 "a" "b",
    c8_error_iff_sink_error.2.2.2.1 "a" "b" (by decide),
    c8_error_iff_sink_error.2.2.2.2 "" ""⟩

/-- C9: rendering a text against itself emits only context lines, each line
rendered as a single space, the line and a newline, and introduces no escape
character the text did not already contain. -/
theorem c9_identical_inputs_context_only : ∀ (t : String),
    write_lines t t = String.join ((splitLines t).map (fun v => " " ++ v ++ "\n")) ∧
    (Char.ofNat 27 ∉ t.data → Char.ofNat 27 ∉ (write_lines t t).data) :=
  fun t => ⟨write_lines_self t, write_lines_self_no_escape t⟩

theorem c9_identical_inputs_context_only_witness :
    Char.ofNat 27 ∉ (write_lines "foo\nbar" "foo\nbar").data :=
  (c9_identical_inputs_context_only "foo\nbar").2 (by decide)

/-- C10: on input pairs whose edit script has no two consecutive removed
lines and no two consecutive inserted lines, the legacy printer and the
current printer produce identical output strings. -/
theorem c10_legacy_current_agree : ∀ (l r : String),
    noTwoAdjacent isLeftEntry (diffLines l r) = true →
    noTwoAdjacent isRightEntry (diffLines l r) = true →
    legacy_write_lines l r = write_lines l r := by
  intro l r hLL hRR
  rw [legacy_write_lines, write_lines,
    show (none : Option String) = LatentDeletion.start.value from rfl,
    legacy_eq_events (diffLines l r) LatentDeletion.start hLL hRR (by simp [LatentDeletion.start])]

theorem c10_legacy_current_agree_witness :
    legacy_write_lines "foo\nbar" "foo\nbaz" = write_lines "foo\nbar" "foo\nbaz" :=
  c10_legacy_current_agree "foo\nbar" "foo\nbaz" (by decide) (by decide)

end PrettyAssertions